import Mathlib

/-!
Shallow embedding of the llama.cpp KV-cache manager
(`src/llama-kv-cache.cpp`): the cell pool with its metadata, the
sequence operations (`seq_rm`, `seq_cp`, `seq_keep`, `seq_add`,
`seq_div`, `seq_pos_max`, `clear`, `defrag`) and the slot allocator
`find_slot` for both the transformer and the recurrent discipline.

Machine integers are modelled as `Int`/`Nat`; `llama_pos` values never
approach the 32-bit range in the statements below, `uint32` quantities
(`head`, `used`, `n`, loop counters) are `Nat`.  The record layout of a
cell and of the slot descriptor comes from the spec's data model since
the header `llama-kv-cache.h` is not among the sources.
-/

namespace KV

/-- Modelled from the spec: one pool cell (`llama_kv_cell`, declared in
the header `llama-kv-cache.h` which is not part of the sources): token
position `pos` (`-1` marks empty), accumulated shift `delta`, recurrent
back-reference `src`, recurrent per-sequence tail index `tail`, and the
set of sequence ids referencing the cell.  A cell is born empty. -/
structure Cell where
  pos : Int := -1
  delta : Int := 0
  src : Int := -1
  tail : Int := -1
  seq_id : Finset Int := ∅
deriving DecidableEq

/-- Modelled from the spec: the cache state (`llama_kv_cache` fields):
the flat cell array, the search hint `head`, the occupied counter
`used`, the recurrent window width `n`, and the flags.  `size` is the
length of the cell list (immutable after init, spec invariant 5). -/
structure State where
  recurrent : Bool
  cells : List Cell
  head : Nat := 0
  used : Nat := 0
  has_shift : Bool := false
  do_defrag : Bool := false
  n : Nat := 0
deriving DecidableEq

/-- Pool capacity: the number of cells. -/
def State.size (st : State) : Nat := st.cells.length

/-- `cells[i]` for a `Nat` index (out-of-range reads, which are UB in
the C++, return the default empty cell). -/
def cellGet (cs : List Cell) (i : Nat) : Cell := cs.getD i {}

/-- `cells[i]` for a signed index such as a `tail` field. -/
def cellGetI (cs : List Cell) (i : Int) : Cell := cellGet cs i.toNat

/-- Write through to `cells[i]` (out-of-range writes are dropped). -/
def modifyCell (cs : List Cell) (i : Nat) (f : Cell → Cell) : List Cell :=
  cs.set i (f (cellGet cs i))

/-- Write through to `cells[i]` for a signed index. -/
def modifyCellI (cs : List Cell) (i : Int) (f : Cell → Cell) : List Cell :=
  modifyCell cs i.toNat f

/-- `std::numeric_limits<llama_pos>::max()`. -/
def llamaPosMax : Int := 2147483647

/-- The body of the `seq_div` transformer loop (lines 407-417) acting on
one cell: matching cells get `pos` divided (C++ truncated division,
`Int.tdiv`) and the difference accumulated into `delta`. -/
def divF (s p0 p1 d : Int) (c : Cell) : Cell :=
  if s ∈ c.seq_id ∧ p0 ≤ c.pos ∧ c.pos < p1 then
    { c with pos := Int.tdiv c.pos d, delta := c.delta + (Int.tdiv c.pos d - c.pos) }
  else c

/-- The body of the `seq_cp` transformer loop (lines 277-281) acting on
one cell: cells of `src` in range get `dst` inserted. -/
def cpF (src dst p0 p1 : Int) (c : Cell) : Cell :=
  if src ∈ c.seq_id ∧ p0 ≤ c.pos ∧ c.pos < p1 then
    { c with seq_id := insert dst c.seq_id }
  else c

/-- The cache right after `init`: `size` empty cells, `head = 0`,
`used = 0`, flags clear. -/
def initState (r : Bool) (sz : Nat) : State :=
  { recurrent := r, cells := List.replicate sz {} }

/-- `llama_kv_cache::clear`: reset `pos`, `seq_id`, `src`, `tail` of
every cell (the C++ does not touch `delta`), reset `head` and `used`. -/
def State.clear (st : State) : State :=
  { st with
    cells := st.cells.map (fun c =>
      { pos := -1, seq_id := ∅, src := -1, tail := -1, delta := c.delta }),
    head := 0
    used := 0 }

/-- The sweep loop of `llama_kv_cache::seq_rm` (lines 200-223): for each
cell with `pos ∈ [p0, p1)` clear (`seq < 0`) or erase the given seq id;
a cell that ends up empty has `used` decremented (when occupied), `pos`
and `src` reset, and is recorded as the first freed index (`new_head`).
Returns (cells, used, first freed index). -/
def seqRmSweep (s p0 p1 : Int) : List Cell → Nat → List Cell × Nat × Option Nat
  | [], used => ([], used, none)
  | c :: rest, used =>
    let t : Cell × Nat × Bool :=
      if p0 ≤ c.pos ∧ c.pos < p1 then
        if s < 0 ∨ s ∈ c.seq_id then
          let c' : Cell :=
            if s < 0 then { c with seq_id := ∅ } else { c with seq_id := c.seq_id.erase s }
          if c'.seq_id = ∅ then
            ({ c' with pos := -1, src := -1 },
             if 0 ≤ c.pos then used - 1 else used, true)
          else (c', used, false)
        else (c, used, false)
      else (c, used, false)
    let r := seqRmSweep s p0 p1 rest t.2.1
    (t.1 :: r.1, r.2.1, if t.2.2 then some 0 else r.2.2.map (· + 1))

/-- Shared tail of `seq_rm`: run the sweep and lower `head` to the first
freed slot if that is smaller (lines 226-228). -/
def seqRmFinish (st : State) (cs : List Cell) (s p0 p1 : Int) : State × Bool :=
  let r := seqRmSweep s p0 p1 cs st.used
  ({ st with
     cells := r.1
     used := r.2.1
     head := match r.2.2 with
       | some nh => if nh < st.head then nh else st.head
       | none => st.head }, true)

/-- `llama_kv_cache::seq_rm` (lines 162-231): normalize the range, apply
the recurrent-mode failure checks and tail invalidation, then sweep. -/
def State.seq_rm (st : State) (s p0 p1 : Int) : State × Bool :=
  let p0' : Int := if p0 < 0 then 0 else p0
  let p1' : Int := if p1 < 0 then llamaPosMax else p1
  if st.recurrent then
    if (st.size : Int) ≤ s then (st, false)
    else if 0 ≤ s then
      let tl := (cellGetI st.cells s).tail
      if 0 ≤ tl then
        let cell := cellGetI st.cells tl
        if (0 < p0' ∧ p0' ≤ cell.pos) ∨ (0 < p1' ∧ p1' ≤ cell.pos) then (st, false)
        else if p0' ≤ cell.pos ∧ cell.pos < p1' then
          seqRmFinish st (modifyCellI st.cells s (fun c => { c with tail := -1 })) s p0' p1'
        else seqRmFinish st st.cells s p0' p1'
      else seqRmFinish st st.cells s p0' p1'
    else if p0' ≠ p1' ∧ ¬(p0' = 0 ∧ p1' = llamaPosMax) then (st, false)
    else seqRmFinish st st.cells s p0' p1'
  else seqRmFinish st st.cells s p0' p1'

/-- `llama_kv_cache::seq_cp` (lines 233-282).  Recurrent: inside the
bounds guard (the `(uint32_t)` casts exclude negative ids), evict `dst`
from its tail cell and attach it to `src`'s tail cell.  Transformer:
reset `head` and insert `dst` into every cell of `src` in range. -/
def State.seq_cp (st : State) (src dst p0 p1 : Int) : State :=
  if src = dst then st
  else
    let p0' : Int := if p0 < 0 then 0 else p0
    let p1' : Int := if p1 < 0 then llamaPosMax else p1
    if st.recurrent then
      if 0 ≤ dst ∧ dst < (st.size : Int) ∧ 0 ≤ src ∧ src < (st.size : Int) then
        let tdst := (cellGetI st.cells dst).tail
        let step1 : List Cell × Nat :=
          if 0 ≤ tdst then
            let cs1 := modifyCellI st.cells tdst (fun c => { c with seq_id := c.seq_id.erase dst })
            let cs2 := modifyCellI cs1 dst (fun c => { c with tail := -1 })
            if (cellGetI cs2 tdst).seq_id = ∅ then
              (modifyCellI cs2 tdst (fun c => { c with pos := -1, delta := -1, src := -1 }),
               st.used - 1)
            else (cs2, st.used)
          else (st.cells, st.used)
        let tsrc := (cellGetI step1.1 src).tail
        let cs' :=
          if 0 ≤ tsrc then
            let cs3 := modifyCellI step1.1 tsrc (fun c => { c with seq_id := insert dst c.seq_id })
            modifyCellI cs3 dst (fun c => { c with tail := tsrc })
          else step1.1
        { st with cells := cs', used := step1.2 }
      else st
    else
      { st with
        head := 0
        cells := st.cells.map (cpF src dst p0' p1') }

/-- The loop of `llama_kv_cache::seq_keep` (lines 287-308), carrying the
cell index: in recurrent mode, cells other than `seq` get `tail := -1`;
cells not containing `seq` are cleared (decrementing `used` when
occupied) and recorded for `new_head`; cells containing it keep exactly
`{seq}`. -/
def seqKeepSweep (recurrent : Bool) (s : Int) : Nat → List Cell → Nat → List Cell × Nat × Option Nat
  | _, [], used => ([], used, none)
  | i, c :: rest, used =>
    let c0 : Cell := if recurrent ∧ (i : Int) ≠ s then { c with tail := -1 } else c
    let t : Cell × Nat × Bool :=
      if s ∈ c0.seq_id then
        ({ c0 with seq_id := {s} }, used, false)
      else
        ({ c0 with pos := -1, src := -1, seq_id := ∅ },
         if 0 ≤ c0.pos then used - 1 else used, true)
    let r := seqKeepSweep recurrent s (i + 1) rest t.2.1
    (t.1 :: r.1, r.2.1, if t.2.2 then some i else r.2.2)

/-- `llama_kv_cache::seq_keep` (lines 284-314). -/
def State.seq_keep (st : State) (s : Int) : State :=
  let r := seqKeepSweep st.recurrent s 0 st.cells st.used
  { st with
    cells := r.1
    used := r.2.1
    head := match r.2.2 with
      | some nh => if nh < st.head then nh else st.head
      | none => st.head }

/-- The transformer sweep of `llama_kv_cache::seq_add` (lines 350-367):
add `d` to `pos` and `delta` of each matching cell; a cell whose new
`pos` is negative is evicted (`used` decremented when non-empty, `pos`
reset, seq ids cleared).  Returns (cells, used, first freed index,
whether any cell matched, i.e. whether `has_shift` was written). -/
def seqAddSweep (s p0 p1 d : Int) : List Cell → Nat → List Cell × Nat × Option Nat × Bool
  | [], used => ([], used, none, false)
  | c :: rest, used =>
    let t : Cell × Nat × Bool × Bool :=
      if s ∈ c.seq_id ∧ p0 ≤ c.pos ∧ c.pos < p1 then
        let c' : Cell := { c with pos := c.pos + d, delta := c.delta + d }
        if c'.pos < 0 then
          ({ c' with pos := -1, seq_id := ∅ },
           if c.seq_id = ∅ then used else used - 1, true, true)
        else (c', used, false, true)
      else (c, used, false, false)
    let r := seqAddSweep s p0 p1 d rest t.2.1
    (t.1 :: r.1, r.2.1,
     (if t.2.2.1 then some 0 else r.2.2.1.map (· + 1)),
     t.2.2.2 ∨ r.2.2.2)

/-- `llama_kv_cache::seq_add` (lines 316-372): early-out on `delta = 0`
and on an empty normalized range; recurrent mode shifts only the tail
cell's `pos`; transformer mode sweeps and then sets
`head := new_head ≠ size ? new_head : 0`. -/
def State.seq_add (st : State) (s p0 p1 d : Int) : State :=
  if d = 0 then st
  else
    let p0' : Int := if p0 < 0 then 0 else p0
    let p1' : Int := if p1 < 0 then llamaPosMax else p1
    if p0' = p1' then st
    else if st.recurrent then
      if 0 ≤ s ∧ s < (st.size : Int) then
        let tl := (cellGetI st.cells s).tail
        if 0 ≤ tl then
          let cell := cellGetI st.cells tl
          if s ∈ cell.seq_id ∧ p0' ≤ cell.pos ∧ cell.pos < p1' then
            { st with cells := modifyCellI st.cells tl (fun c => { c with pos := c.pos + d }) }
          else st
        else st
      else st
    else
      let r := seqAddSweep s p0' p1' d st.cells st.used
      { st with
        cells := r.1
        used := r.2.1
        has_shift := st.has_shift ∨ r.2.2.2
        head := match r.2.2.1 with
          | some nh => nh
          | none => 0 }

/-- `llama_kv_cache::seq_div` (lines 374-418): early-out on `d = 1` and
on an empty normalized range; recurrent mode divides only the tail
cell's `pos`; transformer mode divides `pos` (C++ truncated division,
`Int.tdiv`) and accumulates the difference into `delta` for every
matching cell, setting `has_shift` if any matched. -/
def State.seq_div (st : State) (s p0 p1 d : Int) : State :=
  if d = 1 then st
  else
    let p0' : Int := if p0 < 0 then 0 else p0
    let p1' : Int := if p1 < 0 then llamaPosMax else p1
    if p0' = p1' then st
    else if st.recurrent then
      if 0 ≤ s ∧ s < (st.size : Int) then
        let tl := (cellGetI st.cells s).tail
        if 0 ≤ tl then
          let cell := cellGetI st.cells tl
          if s ∈ cell.seq_id ∧ p0' ≤ cell.pos ∧ cell.pos < p1' then
            { st with cells := modifyCellI st.cells tl (fun c => { c with pos := Int.tdiv c.pos d }) }
          else st
        else st
      else st
    else
      { st with
        has_shift := st.has_shift ∨
          st.cells.any (fun c => decide (s ∈ c.seq_id ∧ p0' ≤ c.pos ∧ c.pos < p1'))
        cells := st.cells.map (divF s p0' p1' d) }

/-- `llama_kv_cache::seq_pos_max` (lines 420-430): fold `max` over the
`pos` of cells containing `seq`, starting from `0`. -/
def State.seq_pos_max (st : State) (s : Int) : Int :=
  st.cells.foldl (fun r c => if s ∈ c.seq_id then max r c.pos else r) 0

/-- `llama_kv_cache::defrag` (lines 432-436): request defrag unless
recurrent. -/
def State.defrag (st : State) : State :=
  if st.recurrent then st else { st with do_defrag := true }

/-- Modelled from the spec: the micro-batch consumed by `find_slot`
(`llama_ubatch`, declared outside the sources): token count, grouping
into `n_seqs` groups of `n_seq_tokens` tokens, the position array and
the ragged per-group seq-id lists (`n_seq_id[s]` is the length of the
`s`-th list). -/
structure Ubatch where
  n_tokens : Nat
  n_seqs : Nat
  n_seq_tokens : Nat
  pos : List Int
  seq_id : List (List Int)
deriving DecidableEq

/-- Modelled from the spec: the slot descriptor returned by `find_slot`
(`llama_kv_cache_slot_info`): success flag and the cell span. -/
structure SlotInfo where
  ok : Bool
  lo : Nat := 0
  hi : Nat := 0
deriving DecidableEq

/-- `llama_kv_cache_slot_info_failed`. -/
def slotFailed : SlotInfo := { ok := false }

/-- First offset `i < n_tokens` with `cells[hd + i].pos ≥ 0` (the inner
loop of the transformer search, lines 623-630). -/
def firstOcc (cs : List Cell) (hd n_tokens : Nat) : Option Nat :=
  (List.range n_tokens).find? (fun i => decide (0 ≤ (cellGet cs (hd + i)).pos))

/-- The transformer search loop of `find_slot` (lines 615-640): from
cursor `hd` with `nt` cells tested, wrap when the window would overrun
(`n_tested += size - head; head = 0`), otherwise find the first occupied
offset; no occupied offset is success, else advance by `i + 1` and fail
once `n_tested ≥ size`.  Returns (found slot start if any, final value
of the mutated `head`).  The `fuel` argument only makes the recursion
structural; every iteration decreases `2*(size - nt)` plus the wrap bit,
so fuel `2*size + 2` is never exhausted (`findLoop_le_fuel`). -/
def findLoop (cs : List Cell) (size n_tokens : Nat) : Nat → Nat → Nat → Option Nat × Nat
  | 0, hd, _ => (none, hd)
  | fuel + 1, hd, nt =>
    if size < hd + n_tokens then
      findLoop cs size n_tokens fuel 0 (nt + (size - hd))
    else
      match firstOcc cs hd n_tokens with
      | none => (some hd, hd)
      | some i =>
        if size ≤ nt + i + 1 then (none, hd + i + 1)
        else findLoop cs size n_tokens fuel (hd + i + 1) (nt + i + 1)

/-- The stamping loops of the transformer `find_slot` (lines 642-651):
for each group `s` and token `i`, cell `head + k` (`k = s·n_seq_tokens +
i`) gets `pos := ubatch.pos[k]` and every seq id of group `s` inserted. -/
def stampCells (cs : List Cell) (hd : Nat) (u : Ubatch) : List Cell :=
  (List.range u.n_seqs).foldl (fun cs s =>
    (List.range u.n_seq_tokens).foldl (fun cs i =>
      let k := s * u.n_seq_tokens + i
      modifyCell cs (hd + k) (fun c =>
        { c with
          pos := u.pos.getD k 0
          seq_id := (u.seq_id.getD s []).foldl (fun t q => insert q t) c.seq_id })) cs) cs

/-- The transformer branch of `llama_kv_cache::find_slot` (lines
606-656): fail outright when `n_tokens > size`; otherwise run the search
loop (which mutates `head`), and on success stamp the cells, add
`n_tokens` to `used` and return the span `(head, head + n_tokens)`. -/
def findSlotTrans (st : State) (u : Ubatch) : State × SlotInfo :=
  if st.size < u.n_tokens then (st, slotFailed)
  else
    match findLoop st.cells st.size u.n_tokens (2 * st.size + 2) st.head 0 with
    | (none, hd') => ({ st with head := hd' }, slotFailed)
    | (some hd, _) =>
      ({ st with
         cells := stampCells st.cells hd u
         head := hd
         used := st.used + u.n_tokens },
       { ok := true, lo := hd, hi := hd + u.n_tokens })

/-- Phase 1 of the recurrent `find_slot` (lines 456-483) over one seq-id
group: bounds-check every id (failure returns the state mutated so far,
as the C++ returns mid-loop); for every non-first id, detach it from its
tail cell, clearing the cell (and decrementing `used`) if it becomes
empty. -/
def p1group (size : Nat) : List Int → Bool → List Cell → Nat →
    Except (List Cell × Nat) (List Cell × Nat)
  | [], _, cs, used => Except.ok (cs, used)
  | q :: rest, first, cs, used =>
    if q < 0 ∨ (size : Int) ≤ q then Except.error (cs, used)
    else if first then p1group size rest false cs used
    else
      let tl := (cellGetI cs q).tail
      if 0 ≤ tl then
        let cs1 := modifyCellI cs tl (fun c => { c with seq_id := c.seq_id.erase q })
        let cs2 := modifyCellI cs1 q (fun c => { c with tail := -1 })
        if (cellGetI cs2 tl).seq_id = ∅ then
          p1group size rest false
            (modifyCellI cs2 tl (fun c => { c with pos := -1, src := -1 })) (used - 1)
        else p1group size rest false cs2 used
      else p1group size rest false cs used

/-- Phase 1 of the recurrent `find_slot` over all groups `s < n_seqs`. -/
def p1outer (u : Ubatch) (size : Nat) : List Nat → List Cell → Nat →
    Except (List Cell × Nat) (List Cell × Nat)
  | [], cs, used => Except.ok (cs, used)
  | s :: rest, cs, used =>
    match p1group size (u.seq_id.getD s []) true cs used with
    | Except.error r => Except.error r
    | Except.ok r => p1outer u size rest r.1 r.2

/-- The next-empty-cell search of the recurrent `find_slot` (lines
507-514 and 540-548): at most `fuel` steps, reducing the cursor by
`size` when it overruns, stopping at the first empty cell. -/
def nextEmptyLoop (cs : List Cell) (size : Nat) : Nat → Nat → Nat
  | nec, 0 => nec
  | nec, fuel + 1 =>
    let nec' := if size ≤ nec then nec - size else nec
    if (cellGet cs nec').seq_id = ∅ then nec'
    else nextEmptyLoop cs size (nec' + 1) fuel

/-- Phase 3 of the recurrent `find_slot` (lines 516-552): for each group
in turn, reuse the primary id's tail cell if it is the sole owner, else
claim the next empty cell (copying `pos`/`src` from the old shared tail
and migrating the id), re-pointing `tail`; track the running `min` and
`max` of the chosen tails.  Returns (cells, cursor, min, max). -/
def p3loop (u : Ubatch) (size : Nat) : List Nat → List Cell → Nat → Int → Int →
    List Cell × Nat × Int × Int
  | [], cs, nec, mn, mx => (cs, nec, mn, mx)
  | s :: rest, cs, nec, mn, mx =>
    let q : Int := (u.seq_id.getD s []).getD 0 0
    let tl := (cellGetI cs q).tail
    let has_cell := 0 ≤ tl ∧ (cellGetI cs tl).seq_id.card = 1
    let r : List Cell × Nat :=
      if has_cell then (cs, nec)
      else
        let cs1 :=
          if 0 ≤ tl then
            let a := modifyCell cs nec (fun c => { c with pos := (cellGetI cs tl).pos })
            let b := modifyCell a nec (fun c => { c with src := (cellGetI a tl).src })
            let c2 := modifyCellI b tl (fun c => { c with seq_id := c.seq_id.erase q })
            modifyCell c2 nec (fun c => { c with seq_id := insert q c.seq_id })
          else cs
        let cs2 := modifyCellI cs1 q (fun c => { c with tail := (nec : Int) })
        if rest ≠ [] then (cs2, nextEmptyLoop cs2 size (nec + 1) size)
        else (cs2, nec)
    let t' := (cellGetI r.1 q).tail
    p3loop u size rest r.1 r.2 (if t' < mn then t' else mn) (if mx < t' then t' else mx)

/-- Re-point `cells[q].tail := t` for every `q` in the given id set (the
re-pointing loops of phase 4, lines 567-572); since a set has no
duplicates and every write stores the same value, the element-wise C++
loop equals this indexed map. -/
def retarget (cs : List Cell) (ids : Finset Int) (t : Int) : List Cell :=
  cs.mapIdx (fun i c => if (i : Int) ∈ ids then { c with tail := t } else c)

/-- Phase 4 of the recurrent `find_slot` (lines 554-574): swap each
chosen tail cell into `min + s` (swapping `pos`, `src` and the id set,
but not `delta` or `tail`), then re-point the `tail` of every id in both
cells. -/
def p4loop (u : Ubatch) (mn : Int) : List Nat → List Cell → List Cell
  | [], cs => cs
  | s :: rest, cs =>
    let dst_id : Int := (s : Int) + mn
    let src_id : Int := (cellGetI cs ((u.seq_id.getD s []).getD 0 0)).tail
    let cs' :=
      if dst_id ≠ src_id then
        let dcell := cellGetI cs dst_id
        let scell := cellGetI cs src_id
        let a := modifyCellI cs dst_id (fun c =>
          { c with pos := scell.pos, src := scell.src, seq_id := scell.seq_id })
        let b := modifyCellI a src_id (fun c =>
          { c with pos := dcell.pos, src := dcell.src, seq_id := dcell.seq_id })
        let c2 := retarget b (cellGetI b src_id).seq_id src_id
        retarget c2 (cellGetI c2 dst_id).seq_id dst_id
      else cs
    p4loop u mn rest cs'

/-- Phase 5 of the recurrent `find_slot` (lines 576-595): stamp each
window cell `min + s` with the group's last position, rewrite its id set
to exactly the batch-provided ids and re-point their tails. -/
def p5loop (u : Ubatch) (mn : Int) : List Nat → List Cell → List Cell
  | [], cs => cs
  | s :: rest, cs =>
    let last_pos := u.pos.getD (u.n_seq_tokens * s + u.n_seq_tokens - 1) 0
    let cell_id : Int := (s : Int) + mn
    let cs1 := modifyCellI cs cell_id (fun c => { c with pos := last_pos, seq_id := ∅ })
    let cs2 := (u.seq_id.getD s []).foldl (fun cs q =>
      let a := modifyCellI cs cell_id (fun c => { c with seq_id := insert q c.seq_id })
      modifyCellI a q (fun c => { c with tail := cell_id })) cs1
    p5loop u mn rest cs2

/-- The recurrent branch of `llama_kv_cache::find_slot` (lines 444-604):
phase 1 cleanup (early failure keeps the mutations made so far), the
empty-cell cursor, tail assignment, compaction, position stamping, and
the finalization `head := min`, `n := max - min + 1`, `used :=` count of
non-empty cells, succeeding iff `n ≥ n_seqs`. -/
def findSlotRec (st : State) (u : Ubatch) : State × SlotInfo :=
  match p1outer u st.size (List.range u.n_seqs) st.cells st.used with
  | Except.error r => ({ st with cells := r.1, used := r.2 }, slotFailed)
  | Except.ok r =>
    let nec := nextEmptyLoop r.1 st.size st.head st.size
    let r3 := p3loop u st.size (List.range u.n_seqs) r.1 nec ((st.size : Int) - 1) 0
    let cs4 := p4loop u r3.2.2.1 (List.range u.n_seqs) r3.1
    let cs5 := p5loop u r3.2.2.1 (List.range u.n_seqs) cs4
    let n' := (r3.2.2.2 - r3.2.2.1 + 1).toNat
    ({ st with
       cells := cs5
       head := r3.2.2.1.toNat
       n := n'
       used := cs5.countP (fun c => decide (¬ c.seq_id = ∅)) },
     { ok := decide (u.n_seqs ≤ n'), lo := 0, hi := 0 })

/-- `llama_kv_cache::find_slot` (lines 438-656). -/
def State.find_slot (st : State) (u : Ubatch) : State × SlotInfo :=
  if st.recurrent then findSlotRec st u else findSlotTrans st u

/-- One public mutating operation of the cache, with its arguments. -/
inductive Op where
  | op_clear
  | op_rm (s p0 p1 : Int)
  | op_cp (src dst p0 p1 : Int)
  | op_keep (s : Int)
  | op_add (s p0 p1 d : Int)
  | op_div (s p0 p1 d : Int)
  | op_find (u : Ubatch)
  | op_defrag

/-- Apply one public operation to the cache state. -/
def step (st : State) : Op → State
  | .op_clear => st.clear
  | .op_rm s p0 p1 => (st.seq_rm s p0 p1).1
  | .op_cp src dst p0 p1 => st.seq_cp src dst p0 p1
  | .op_keep s => st.seq_keep s
  | .op_add s p0 p1 d => st.seq_add s p0 p1 d
  | .op_div s p0 p1 d => st.seq_div s p0 p1 d
  | .op_find u => (st.find_slot u).1
  | .op_defrag => st.defrag

/-- States reachable from an initial cache by public operations. -/
inductive Reach : State → Prop
  | init (r : Bool) (sz : Nat) : Reach (initState r sz)
  | step {st : State} (op : Op) : Reach st → Reach (step st op)

/-- Arguments under which an operation respects the cache's intended
calling convention: `seq_div` gets a positive divisor and `find_slot` a
batch whose token count matches its grouping and whose positions are
non-negative. -/
def wfOp : Op → Prop
  | .op_div _ _ _ d => 1 ≤ d
  | .op_find u => u.n_tokens = u.n_seqs * u.n_seq_tokens ∧ ∀ p ∈ u.pos, 0 ≤ p
  | _ => True

/-- States reachable in transformer (non-recurrent) mode by operations
with well-formed arguments. -/
inductive TReach : State → Prop
  | init (sz : Nat) : TReach (initState false sz)
  | step {st : State} (op : Op) : TReach st → wfOp op → TReach (step st op)

/-- Number of occupied cells (`pos ≥ 0`). -/
def occCount (cs : List Cell) : Nat := cs.countP (fun c => decide (0 ≤ c.pos))

/-- A one-token micro-batch: position 0, sequence 0. -/
def uOne : Ubatch :=
  { n_tokens := 1, n_seqs := 1, n_seq_tokens := 1, pos := [0], seq_id := [[0]] }

/-- A full transformer cache of size 1, reached by allocating `uOne`. -/
def stC3 : State := step (initState false 1) (Op.op_find uOne)

/-- A one-token micro-batch at position 5 for sequence 0 (recurrent). -/
def uR : Ubatch :=
  { n_tokens := 1, n_seqs := 1, n_seq_tokens := 1, pos := [5], seq_id := [[0]] }

/-- Recurrent cache of size 1 after allocating `uR`: cell 0 holds seq 0
at `pos = 5` with `cells[0].tail = 0`. -/
def stR1 : State := step (initState true 1) (Op.op_find uR)

/-- `stR1` after `seq_rm(-1, -1, -1)` (erase everything): the sweep
clears every cell but leaves every `tail` field untouched. -/
def stR2 : State := step stR1 (Op.op_rm (-1) (-1) (-1))

/-- Transformer cache of size 1 after allocating `uOne` and shifting
sequence 0 by `+1`: `has_shift = true` and the cell's `delta = 1`. -/
def stH : State := step stC3 (Op.op_add 0 0 1 1)

/-- A one-token micro-batch at position 1 for sequence 0. -/
def uP : Ubatch :=
  { n_tokens := 1, n_seqs := 1, n_seq_tokens := 1, pos := [1], seq_id := [[0]] }

/-- Transformer cache of size 1 after allocating `uP` and then
`seq_div(0, 0, 2, -1)`: the cell's `pos` becomes `1 / -1 = -1` while its
seq-id set stays `{0}` and `used` stays 1. -/
def stDiv : State := step (step (initState false 1) (Op.op_find uP)) (Op.op_div 0 0 2 (-1))

/-- Spec-side predicate (§4.2): position `p` starts a run of `n_tokens`
consecutive cells, all empty (`pos < 0`), that fits inside the pool. -/
def isRun (cs : List Cell) (size n_tokens p : Nat) : Prop :=
  p + n_tokens ≤ size ∧ ∀ i < n_tokens, (cellGet cs (p + i)).pos < 0

instance isRunDec (cs : List Cell) (size n_tokens p : Nat) :
    Decidable (isRun cs size n_tokens p) := by
  unfold isRun; infer_instance

/-- The batch of spec scenario S1: three tokens of sequence 0 at
positions 0, 1, 2 in one group. -/
def uS1 : Ubatch :=
  { n_tokens := 3, n_seqs := 1, n_seq_tokens := 3, pos := [0, 1, 2], seq_id := [[0]] }

/-- Spec-side description of the transformer `find_slot` (§4.2, claim
C2), to be compared with the embedded `find_slot`: failure exactly when
the batch exceeds the pool or no run of empty cells exists; on success
the span is the first run in scan order from `head` (wrapping at most
once), the span cells get the batch positions and seq ids, `used` grows
by `n_tokens`, `head` lands on the span start and all other cells are
untouched. -/
def findSlotSpecProp (st : State) (u : Ubatch) : Prop :=
  ((st.find_slot u).2.ok = false ↔
      (st.size < u.n_tokens ∨ ∀ p, ¬ isRun st.cells st.size u.n_tokens p)) ∧
  ((st.find_slot u).2.ok = true →
    isRun st.cells st.size u.n_tokens (st.find_slot u).2.lo ∧
    (st.find_slot u).2.hi = (st.find_slot u).2.lo + u.n_tokens ∧
    ((st.head ≤ (st.find_slot u).2.lo ∧
        ∀ r, st.head ≤ r → r < (st.find_slot u).2.lo →
          ¬ isRun st.cells st.size u.n_tokens r) ∨
      ((∀ r, st.head ≤ r → ¬ isRun st.cells st.size u.n_tokens r) ∧
        ∀ r, r < (st.find_slot u).2.lo → ¬ isRun st.cells st.size u.n_tokens r)) ∧
    (st.find_slot u).1.used = st.used + u.n_tokens ∧
    (st.find_slot u).1.head = (st.find_slot u).2.lo ∧
    (st.find_slot u).1.cells.length = st.cells.length ∧
    (∀ k, k < u.n_tokens →
      (cellGet (st.find_slot u).1.cells ((st.find_slot u).2.lo + k)).pos
        = u.pos.getD k 0) ∧
    (∀ k, k < u.n_tokens → ∀ x : Int,
      x ∈ (cellGet (st.find_slot u).1.cells ((st.find_slot u).2.lo + k)).seq_id ↔
        (x ∈ (cellGet st.cells ((st.find_slot u).2.lo + k)).seq_id ∨
          x ∈ u.seq_id.getD (k / u.n_seq_tokens) [])) ∧
    (∀ j, (j < (st.find_slot u).2.lo ∨ (st.find_slot u).2.lo + u.n_tokens ≤ j) →
      cellGet (st.find_slot u).1.cells j = cellGet st.cells j))

/-- Per-cell action of the `seq_rm` sweep (proof device: the sweep acts
on each cell independently). -/
def rmF (s p0 p1 : Int) (c : Cell) : Cell :=
  if p0 ≤ c.pos ∧ c.pos < p1 then
    if s < 0 ∨ s ∈ c.seq_id then
      let c' : Cell :=
        if s < 0 then { c with seq_id := ∅ } else { c with seq_id := c.seq_id.erase s }
      if c'.seq_id = ∅ then { c' with pos := -1, src := -1 } else c'
    else c
  else c

/-- Per-cell action of the `seq_add` sweep (proof device). -/
def addF (s p0 p1 d : Int) (c : Cell) : Cell :=
  if s ∈ c.seq_id ∧ p0 ≤ c.pos ∧ c.pos < p1 then
    let c' : Cell := { c with pos := c.pos + d, delta := c.delta + d }
    if c'.pos < 0 then { c' with pos := -1, seq_id := ∅ } else c'
  else c

/-- Per-cell action of the `seq_keep` sweep at index `i` (proof
device). -/
def keepF (recurrent : Bool) (s : Int) (i : Nat) (c : Cell) : Cell :=
  let c0 : Cell := if recurrent ∧ (i : Int) ≠ s then { c with tail := -1 } else c
  if s ∈ c0.seq_id then { c0 with seq_id := {s} }
  else { c0 with pos := -1, src := -1, seq_id := ∅ }

/-- A state with one cell that contains seq id 0 at `pos = -1`
(reachable: e.g. via `find_slot` then `seq_div` with divisor `-1`). -/
def st8 : State := { recurrent := false, cells := [{ pos := -1, seq_id := {0} }] }

/-- A transformer state with one occupied cell holding seq id 0. -/
def st9 : State :=
  { recurrent := false, cells := [{ pos := 8, seq_id := {0} }], used := 1 }

/-- A transformer state with one cell at `pos = 0` holding seq id 0. -/
def st6 : State :=
  { recurrent := false, cells := [{ pos := 0, seq_id := {0} }], used := 1 }

end KV

namespace KV

/-! ### Generic lemmas about cell access -/

theorem cellGet_map_of_default (f : Cell → Cell) (hf : f {} = {}) (cs : List Cell) (i : Nat) :
    cellGet (cs.map f) i = f (cellGet cs i) := by
  simp only [cellGet, List.getD_eq_getElem?_getD, List.getElem?_map]
  cases cs[i]? <;> simp [hf]

theorem cellGet_lt (cs : List Cell) (i : Nat) (h : i < cs.length) :
    cellGet cs i = cs.get ⟨i, h⟩ := by
  simp [cellGet, List.getD_eq_getElem?_getD, List.getElem?_eq_getElem h]

theorem cellGet_ge (cs : List Cell) (i : Nat) (h : cs.length ≤ i) :
    cellGet cs i = {} := by
  simp [cellGet, List.getD_eq_getElem?_getD, List.getElem?_eq_none h]

theorem cellGet_map_divF (s p0 p1 d : Int) (cs : List Cell) (i : Nat) :
    cellGet (cs.map (divF s p0 p1 d)) i = divF s p0 p1 d (cellGet cs i) :=
  cellGet_map_of_default _ (by simp [divF]) cs i

theorem cellGet_map_cpF (src dst p0 p1 : Int) (cs : List Cell) (i : Nat) :
    cellGet (cs.map (cpF src dst p0 p1)) i = cpF src dst p0 p1 (cellGet cs i) :=
  cellGet_map_of_default _ (by simp [cpF]) cs i

/-! ### C10: out-of-bounds recurrent `seq_cp` is a silent no-op -/

/-- C10: in recurrent mode, `seq_cp(src, dst, p0, p1)` with `src ≠ dst`
and either id outside `[0, size)` leaves the entire cache state
unchanged: the bounds guard skips the whole body and the function
returns without any error signal. -/
theorem seq_cp_recurrent_oob_noop (st : State) (src dst p0 p1 : Int)
    (hrec : st.recurrent = true) (hne : src ≠ dst)
    (hout : src < 0 ∨ (st.size : Int) ≤ src ∨ dst < 0 ∨ (st.size : Int) ≤ dst) :
    st.seq_cp src dst p0 p1 = st := by
  unfold State.seq_cp
  rw [if_neg hne, hrec]
  simp only [if_true]
  rw [if_neg (by omega)]

/-- Witness for C10 at a concrete input: a reachable recurrent cache of
size 2, `seq_cp(0, 5, 0, 1)` with `5` out of range. -/
theorem seq_cp_recurrent_oob_noop_witness :
    ((initState true 2).recurrent = true ∧ (0 : Int) ≠ 5 ∧
      ((0 : Int) < 0 ∨ ((initState true 2).size : Int) ≤ 0 ∨ (5 : Int) < 0 ∨
        ((initState true 2).size : Int) ≤ 5)) ∧
    (initState true 2).seq_cp 0 5 0 1 = initState true 2 :=
  ⟨by decide, seq_cp_recurrent_oob_noop (initState true 2) 0 5 0 1 (by decide) (by decide)
    (by decide)⟩

/-! ### C9: transformer `seq_div` only rewrites `pos`/`delta` -/

/-- C9: in non-recurrent mode `seq_div` never changes `used`, `head`,
the pool size or any cell's seq-id set, `src` or `tail` — in particular
it never empties or evicts a cell — and leaves non-matching cells
entirely unchanged, for every divisor `d`. -/
theorem seq_div_frame (st : State) (s p0 p1 d : Int) (hrec : st.recurrent = false) :
    (st.seq_div s p0 p1 d).used = st.used ∧
    (st.seq_div s p0 p1 d).head = st.head ∧
    (st.seq_div s p0 p1 d).cells.length = st.cells.length ∧
    (∀ i : Nat,
      (cellGet (st.seq_div s p0 p1 d).cells i).seq_id = (cellGet st.cells i).seq_id ∧
      (cellGet (st.seq_div s p0 p1 d).cells i).src = (cellGet st.cells i).src ∧
      (cellGet (st.seq_div s p0 p1 d).cells i).tail = (cellGet st.cells i).tail) ∧
    (∀ i : Nat,
      ¬(s ∈ (cellGet st.cells i).seq_id ∧
          (if p0 < 0 then 0 else p0) ≤ (cellGet st.cells i).pos ∧
          (cellGet st.cells i).pos < (if p1 < 0 then llamaPosMax else p1)) →
      cellGet (st.seq_div s p0 p1 d).cells i = cellGet st.cells i) := by
  unfold State.seq_div
  rw [hrec]
  simp only [Bool.false_eq_true, if_false]
  split_ifs <;>
    refine ⟨rfl, rfl, ?_, fun i => ?_, fun i hni => ?_⟩ <;>
    first
      | rfl
      | exact ⟨rfl, rfl, rfl⟩
      | (rw [cellGet_map_divF]; unfold divF; split <;> simp)
      | (rw [cellGet_map_divF]; unfold divF; rw [if_neg hni])
      | simp

/-- Witness for C9: concrete transformer state with one occupied cell,
divided by 7. -/
theorem seq_div_frame_witness :
    (st9.recurrent = false) ∧
    ((st9.seq_div 0 0 9 7).used = st9.used ∧
      (st9.seq_div 0 0 9 7).head = st9.head ∧
      (st9.seq_div 0 0 9 7).cells.length = st9.cells.length ∧
      (∀ i : Nat,
        (cellGet (st9.seq_div 0 0 9 7).cells i).seq_id = (cellGet st9.cells i).seq_id ∧
        (cellGet (st9.seq_div 0 0 9 7).cells i).src = (cellGet st9.cells i).src ∧
        (cellGet (st9.seq_div 0 0 9 7).cells i).tail = (cellGet st9.cells i).tail) ∧
      (∀ i : Nat,
        ¬((0 : Int) ∈ (cellGet st9.cells i).seq_id ∧
            (if (0 : Int) < 0 then 0 else 0) ≤ (cellGet st9.cells i).pos ∧
            (cellGet st9.cells i).pos < (if (9 : Int) < 0 then llamaPosMax else 9)) →
        cellGet (st9.seq_div 0 0 9 7).cells i = cellGet st9.cells i)) :=
  ⟨rfl, seq_div_frame st9 0 0 9 7 rfl⟩

/-! ### C8: `seq_pos_max` is floored at 0 -/

/-- Characterization of the `seq_pos_max` fold, for any accumulator. -/
theorem spm_fold (s : Int) (cs : List Cell) (a : Int) :
    a ≤ cs.foldl (fun r c => if s ∈ c.seq_id then max r c.pos else r) a ∧
    (cs.foldl (fun r c => if s ∈ c.seq_id then max r c.pos else r) a = a ∨
      ∃ c ∈ cs, s ∈ c.seq_id ∧
        c.pos = cs.foldl (fun r c => if s ∈ c.seq_id then max r c.pos else r) a) ∧
    ∀ c ∈ cs, s ∈ c.seq_id →
      c.pos ≤ cs.foldl (fun r c => if s ∈ c.seq_id then max r c.pos else r) a := by
  induction cs generalizing a with
  | nil => simp
  | cons c rest ih =>
    simp only [List.foldl_cons]
    by_cases hsc : s ∈ c.seq_id
    · rw [if_pos hsc]
      obtain ⟨h1, h2, h3⟩ := ih (max a c.pos)
      refine ⟨le_trans (le_max_left _ _) h1, ?_, ?_⟩
      · rcases h2 with h2 | ⟨c', hc', hsc', he⟩
        · rcases le_total a c.pos with hle | hle
          · exact Or.inr ⟨c, List.mem_cons_self c rest, hsc, by rw [h2, max_eq_right hle]⟩
          · exact Or.inl (by rw [h2, max_eq_left hle])
        · exact Or.inr ⟨c', List.mem_cons_of_mem _ hc', hsc', he⟩
      · intro c' hc' hs'
        rcases List.mem_cons.mp hc' with rfl | hc'
        · exact le_trans (le_max_right a c'.pos) h1
        · exact h3 c' hc' hs'
    · rw [if_neg hsc]
      obtain ⟨h1, h2, h3⟩ := ih a
      refine ⟨h1, ?_, ?_⟩
      · rcases h2 with h2 | ⟨c', hc', hsc', he⟩
        · exact Or.inl h2
        · exact Or.inr ⟨c', List.mem_cons_of_mem _ hc', hsc', he⟩
      · intro c' hc' hs'
        rcases List.mem_cons.mp hc' with rfl | hc'
        · exact absurd hs' hsc
        · exact h3 c' hc' hs'

/-- C8 (amended): `seq_pos_max s` returns the maximum of `0` and the
`pos` values of cells containing `s`: it is never negative, bounds every
such cell, is either `0` or attained by some cell containing `s`, and is
`0` when no cell contains `s`. -/
theorem seq_pos_max_spec (st : State) (s : Int) :
    0 ≤ st.seq_pos_max s ∧
    (∀ c ∈ st.cells, s ∈ c.seq_id → c.pos ≤ st.seq_pos_max s) ∧
    (st.seq_pos_max s = 0 ∨ ∃ c ∈ st.cells, s ∈ c.seq_id ∧ c.pos = st.seq_pos_max s) ∧
    ((∀ c ∈ st.cells, s ∉ c.seq_id) → st.seq_pos_max s = 0) := by
  obtain ⟨h1, h2, h3⟩ := spm_fold s st.cells 0
  refine ⟨h1, h3, h2, fun hnone => ?_⟩
  rcases h2 with h2 | ⟨c, hc, hsc, _⟩
  · exact h2
  · exact absurd hsc (hnone c hc)

/-- Counterexample for C8 as stated: in `st8` the (unique) cell
containing seq id 0 has `pos = -1`, so the maximum `pos` over cells
containing 0 is `-1`, yet `seq_pos_max` returns `0`, not that maximum. -/
theorem seq_pos_max_cex :
    (st8.cells.filter (fun c => decide ((0 : Int) ∈ c.seq_id))).map Cell.pos = [-1] ∧
    st8.seq_pos_max 0 = 0 ∧ st8.seq_pos_max 0 ≠ -1 := by decide

/-! ### C5: the failure modes of `seq_rm` -/

/-- C5: `seq_rm(seq, p0, p1)` returns `false` exactly when the model is
recurrent and either `seq ≥ size`, or `seq ≥ 0` and there is a tail cell
whose `pos` partially overlaps the normalized range
(`0 < p0 ≤ pos` or `0 < p1 ≤ pos`), or `seq < 0` and the normalized
range is neither empty nor all-inclusive; in particular in
non-recurrent mode it returns `true` for every input. -/
theorem seq_rm_false_iff (st : State) (s p0 p1 : Int) :
    (st.seq_rm s p0 p1).2 = false ↔
      (st.recurrent = true ∧
        ((st.size : Int) ≤ s ∨
         (0 ≤ s ∧ 0 ≤ (cellGetI st.cells s).tail ∧
           ((0 < (if p0 < 0 then 0 else p0) ∧
               (if p0 < 0 then 0 else p0) ≤
                 (cellGetI st.cells (cellGetI st.cells s).tail).pos) ∨
            (0 < (if p1 < 0 then llamaPosMax else p1) ∧
               (if p1 < 0 then llamaPosMax else p1) ≤
                 (cellGetI st.cells (cellGetI st.cells s).tail).pos))) ∨
         (s < 0 ∧ (if p0 < 0 then 0 else p0) ≠ (if p1 < 0 then llamaPosMax else p1) ∧
           ¬((if p0 < 0 then 0 else p0) = 0 ∧
             (if p1 < 0 then llamaPosMax else p1) = llamaPosMax)))) := by
  unfold State.seq_rm
  cases hr : st.recurrent with
  | false => simp [seqRmFinish, hr]
  | true =>
    simp only [if_true]
    split_ifs <;> simp_all [seqRmFinish] <;> omega

/-! ### C6: `seq_add` round trip -/

theorem seqAddSweep_fst (s p0 p1 d : Int) (cs : List Cell) : ∀ used : Nat,
    (seqAddSweep s p0 p1 d cs used).1 = cs.map (addF s p0 p1 d) := by
  induction cs with
  | nil => intro used; rfl
  | cons c rest ih =>
    intro used
    unfold seqAddSweep
    simp only [List.map_cons, ih]
    congr 1
    unfold addF
    dsimp only
    split_ifs <;> rfl

theorem cellGet_map_addF (s p0 p1 d : Int) (cs : List Cell) (i : Nat) :
    cellGet (cs.map (addF s p0 p1 d)) i = addF s p0 p1 d (cellGet cs i) :=
  cellGet_map_of_default _ (by simp [addF]) cs i

theorem seq_add_recurrent (st : State) (s p0 p1 d : Int) :
    (st.seq_add s p0 p1 d).recurrent = st.recurrent := by
  unfold State.seq_add
  dsimp only
  split_ifs <;> rfl

theorem seq_add_cells_eq (st : State) (s p0 p1 d : Int) (hrec : st.recurrent = false) :
    (st.seq_add s p0 p1 d).cells =
      if d = 0 ∨ (if p0 < 0 then 0 else p0) = (if p1 < 0 then llamaPosMax else p1) then
        st.cells
      else
        st.cells.map
          (addF s (if p0 < 0 then 0 else p0) (if p1 < 0 then llamaPosMax else p1) d) := by
  unfold State.seq_add
  rw [hrec]
  simp only [Bool.false_eq_true, if_false]
  split_ifs <;> first | rfl | tauto | simp [seqAddSweep_fst]

/-- C6 (amended): for a non-negative shift `d`, `seq_add(s, p0, p1, +d)`
followed by `seq_add(s, p0+d, p1+d, -d)` restores the `pos` of every
cell that originally contained `s` with `pos ∈ [p0, p1)`.  (A negative
`d` can evict such cells, see the counterexample.) -/
theorem seq_add_roundtrip_nonneg (st : State) (s p0 p1 d : Int)
    (hrec : st.recurrent = false) (hlt : p0 < p1) (hd0 : 0 ≤ d) (i : Nat)
    (hs : s ∈ (cellGet st.cells i).seq_id)
    (h1 : p0 ≤ (cellGet st.cells i).pos)
    (h2 : (cellGet st.cells i).pos < p1) :
    (cellGet ((st.seq_add s p0 p1 d).seq_add s (p0 + d) (p1 + d) (-d)).cells i).pos
      = (cellGet st.cells i).pos := by
  by_cases hd : d = 0
  · simp [State.seq_add, hd]
  · have hrec2 : (st.seq_add s p0 p1 d).recurrent = false := by
      rw [seq_add_recurrent]; exact hrec
    rw [seq_add_cells_eq _ _ _ _ _ hrec2, seq_add_cells_eq _ _ _ _ _ hrec]
    by_cases hcpos : (cellGet st.cells i).pos < 0
    · have hstep : ∀ (q0' q1' e : Int), 0 ≤ q0' →
          addF s q0' q1' e (cellGet st.cells i) = cellGet st.cells i := by
        intro q0' q1' e hq0
        unfold addF
        rw [if_neg (by rintro ⟨_, hge, _⟩; omega)]
      have hq0a : (0 : Int) ≤ if p0 < 0 then 0 else p0 := by split <;> omega
      have hq0b : (0 : Int) ≤ if p0 + d < 0 then 0 else p0 + d := by split <;> omega
      by_cases hC1 : d = 0 ∨ (if p0 < 0 then 0 else p0) = (if p1 < 0 then llamaPosMax else p1)
      · rw [if_pos hC1]
        by_cases hC2 : -d = 0 ∨
            (if p0 + d < 0 then 0 else p0 + d) = (if p1 + d < 0 then llamaPosMax else p1 + d)
        · rw [if_pos hC2]
        · rw [if_neg hC2, cellGet_map_addF, hstep _ _ _ hq0b]
      · rw [if_neg hC1]
        by_cases hC2 : -d = 0 ∨
            (if p0 + d < 0 then 0 else p0 + d) = (if p1 + d < 0 then llamaPosMax else p1 + d)
        · rw [if_pos hC2, cellGet_map_addF, hstep _ _ _ hq0a]
        · rw [if_neg hC2, cellGet_map_addF, cellGet_map_addF, hstep _ _ _ hq0a,
            hstep _ _ _ hq0b]
    · push_neg at hcpos
      have hP0 : (if p0 < 0 then 0 else p0) ≤ (cellGet st.cells i).pos := by
        split <;> omega
      have hP1 : (cellGet st.cells i).pos < (if p1 < 0 then llamaPosMax else p1) := by
        split <;> omega
      have hQ0 : (if p0 + d < 0 then 0 else p0 + d) ≤ (cellGet st.cells i).pos + d := by
        split <;> omega
      have hQ1 : (cellGet st.cells i).pos + d < (if p1 + d < 0 then llamaPosMax else p1 + d) := by
        split <;> omega
      have hC1 : ¬(d = 0 ∨ (if p0 < 0 then 0 else p0) = (if p1 < 0 then llamaPosMax else p1)) := by
        rintro (h | h)
        · exact hd h
        · rw [h] at hP0
          exact absurd hP1 (not_lt.mpr hP0)
      have hC2 : ¬(-d = 0 ∨
          (if p0 + d < 0 then 0 else p0 + d) = (if p1 + d < 0 then llamaPosMax else p1 + d)) := by
        rintro (h | h)
        · exact hd (neg_eq_zero.mp h)
        · rw [h] at hQ0
          exact absurd hQ1 (not_lt.mpr hQ0)
      rw [if_neg hC2, if_neg hC1, cellGet_map_addF, cellGet_map_addF]
      have hinner :
          addF s (if p0 < 0 then 0 else p0) (if p1 < 0 then llamaPosMax else p1) d
              (cellGet st.cells i)
            = { cellGet st.cells i with
                pos := (cellGet st.cells i).pos + d
                delta := (cellGet st.cells i).delta + d } := by
        unfold addF
        rw [if_pos ⟨hs, hP0, hP1⟩]
        dsimp only
        rw [if_neg (by omega : ¬((cellGet st.cells i).pos + d < 0))]
      rw [hinner]
      unfold addF
      rw [if_pos ⟨hs, hQ0, hQ1⟩]
      dsimp only
      rw [if_neg (by omega : ¬((cellGet st.cells i).pos + d + -d < 0))]
      dsimp only
      omega

/-- Counterexample for C6 as stated (arbitrary shift `d`): with `d = -1`
the first `seq_add` evicts the matching cell (its `pos` would become
negative), so the second call cannot restore it. -/
theorem seq_add_roundtrip_cex :
    (0 : Int) ∈ (cellGet st6.cells 0).seq_id ∧
    (0 : Int) ≤ (cellGet st6.cells 0).pos ∧ (cellGet st6.cells 0).pos < 1 ∧
    (cellGet st6.cells 0).pos = 0 ∧
    (cellGet ((st6.seq_add 0 0 1 (-1)).seq_add 0 (0 + (-1)) (1 + (-1)) (-(-1))).cells 0).pos
      = -1 := by decide

/-- Witness for C6 at a concrete input: `st9`, seq 0, range `[0, 9)`,
shift `+3`. -/
theorem seq_add_roundtrip_nonneg_witness :
    (st9.recurrent = false ∧ (0 : Int) < 9 ∧ (0 : Int) ≤ 3 ∧
      (0 : Int) ∈ (cellGet st9.cells 0).seq_id ∧
      (0 : Int) ≤ (cellGet st9.cells 0).pos ∧ (cellGet st9.cells 0).pos < 9) ∧
    (cellGet ((st9.seq_add 0 0 9 3).seq_add 0 (0 + 3) (9 + 3) (-3)).cells 0).pos
      = (cellGet st9.cells 0).pos :=
  ⟨by decide,
   seq_add_roundtrip_nonneg st9 0 0 9 3 rfl (by decide) (by decide) 0 (by decide) (by decide)
     (by decide)⟩

/-! ### Counting occupied cells -/

theorem occCount_nil : occCount [] = 0 := rfl

theorem occCount_cons (c : Cell) (cs : List Cell) :
    occCount (c :: cs) = occCount cs + (if 0 ≤ c.pos then 1 else 0) := by
  simp [occCount, List.countP_cons]

theorem occCount_replicate_default (n : Nat) : occCount (List.replicate n {}) = 0 := by
  induction n with
  | zero => rfl
  | succ n ih =>
    rw [List.replicate_succ, occCount_cons, ih]
    simp

theorem cellGet_set_ne (cs : List Cell) (i : Nat) (c : Cell) (j : Nat) (h : i ≠ j) :
    cellGet (cs.set i c) j = cellGet cs j := by
  simp [cellGet, List.getD_eq_getElem?_getD, List.getElem?_set_ne h]

theorem cellGet_set_eq (cs : List Cell) (i : Nat) (c : Cell) (h : i < cs.length) :
    cellGet (cs.set i c) i = c := by
  simp [cellGet, List.getD_eq_getElem?_getD, List.getElem?_set_eq h]

theorem cellGet_cons_zero (a : Cell) (rest : List Cell) : cellGet (a :: rest) 0 = a := rfl

theorem cellGet_cons_succ (a : Cell) (rest : List Cell) (n : Nat) :
    cellGet (a :: rest) (n + 1) = cellGet rest n := rfl

theorem occCount_set (cs : List Cell) (i : Nat) (c : Cell) (h : i < cs.length) :
    occCount (cs.set i c) + (if 0 ≤ (cellGet cs i).pos then 1 else 0)
      = occCount cs + (if 0 ≤ c.pos then 1 else 0) := by
  induction cs generalizing i with
  | nil => simp at h
  | cons a rest ih =>
    cases i with
    | zero =>
      show occCount (c :: rest) + _ = occCount (a :: rest) + _
      rw [occCount_cons, occCount_cons, cellGet_cons_zero]
      omega
    | succ n =>
      have hn : n < rest.length := by simpa using h
      show occCount (a :: rest.set n c) + _ = occCount (a :: rest) + _
      rw [occCount_cons, occCount_cons, cellGet_cons_succ]
      have := ih n hn
      omega

theorem modifyCell_length (cs : List Cell) (i : Nat) (f : Cell → Cell) :
    (modifyCell cs i f).length = cs.length := by
  simp [modifyCell]

theorem cellGet_modify_ne (cs : List Cell) (i : Nat) (f : Cell → Cell) (j : Nat) (h : i ≠ j) :
    cellGet (modifyCell cs i f) j = cellGet cs j :=
  cellGet_set_ne cs i _ j h

theorem cellGet_modify_eq (cs : List Cell) (i : Nat) (f : Cell → Cell) (h : i < cs.length) :
    cellGet (modifyCell cs i f) i = f (cellGet cs i) :=
  cellGet_set_eq cs i _ h

theorem occCount_modify (cs : List Cell) (i : Nat) (f : Cell → Cell) (h : i < cs.length) :
    occCount (modifyCell cs i f) + (if 0 ≤ (cellGet cs i).pos then 1 else 0)
      = occCount cs + (if 0 ≤ (f (cellGet cs i)).pos then 1 else 0) :=
  occCount_set cs i _ h

theorem occCount_map_congr (f : Cell → Cell) (cs : List Cell)
    (hf : ∀ c, 0 ≤ (f c).pos ↔ 0 ≤ c.pos) :
    occCount (cs.map f) = occCount cs := by
  simp only [occCount, List.countP_map]
  exact List.countP_congr (fun c _ => by simpa [Function.comp] using hf c)

/-! ### The sweeps and `used` -/

theorem seqRmSweep_used (s p0 p1 : Int) (cs : List Cell) : ∀ used : Nat,
    occCount cs ≤ used →
    (seqRmSweep s p0 p1 cs used).2.1 + occCount cs
        = used + occCount (seqRmSweep s p0 p1 cs used).1 ∧
    occCount (seqRmSweep s p0 p1 cs used).1 ≤ occCount cs := by
  induction cs with
  | nil => intro used h; simp [seqRmSweep, occCount_nil]
  | cons c rest ih =>
    intro used h
    rw [occCount_cons] at h
    unfold seqRmSweep
    dsimp only
    split_ifs <;>
      (simp only [occCount_cons]
       try dsimp only at *
       try simp only [if_neg (show ¬(0 : Int) ≤ -1 by norm_num)]
       try simp only [if_pos (show (0 : Int) ≤ c.pos by omega)]
       try simp only [if_neg (show ¬(0 : Int) ≤ c.pos by omega)]
       try simp only [if_pos (show (0 : Int) ≤ c.pos by omega)] at h
       try simp only [if_neg (show ¬(0 : Int) ≤ c.pos by omega)] at h
       first
         | (obtain ⟨ih1, ih2⟩ := ih (used - 1) (by omega)
            omega)
         | (obtain ⟨ih1, ih2⟩ := ih used (by omega)
            omega))

theorem seqKeepSweep_used (r : Bool) (s : Int) (cs : List Cell) : ∀ (i : Nat) (used : Nat),
    occCount cs ≤ used →
    (seqKeepSweep r s i cs used).2.1 + occCount cs
        = used + occCount (seqKeepSweep r s i cs used).1 ∧
    occCount (seqKeepSweep r s i cs used).1 ≤ occCount cs := by
  induction cs with
  | nil => intro i used h; simp [seqKeepSweep, occCount_nil]
  | cons c rest ih =>
    intro i used h
    rw [occCount_cons] at h
    unfold seqKeepSweep
    dsimp only
    split_ifs <;>
      (simp only [occCount_cons]
       try dsimp only at *
       try simp only [if_neg (show ¬(0 : Int) ≤ -1 by norm_num)]
       try simp only [if_pos (show (0 : Int) ≤ c.pos by omega)]
       try simp only [if_neg (show ¬(0 : Int) ≤ c.pos by omega)]
       try simp only [if_pos (show (0 : Int) ≤ c.pos by omega)] at h
       try simp only [if_neg (show ¬(0 : Int) ≤ c.pos by omega)] at h
       first
         | (obtain ⟨ih1, ih2⟩ := ih (i + 1) (used - 1) (by omega)
            omega)
         | (obtain ⟨ih1, ih2⟩ := ih (i + 1) used (by omega)
            omega))

theorem seqAddSweep_used (s p0 p1 d : Int) (hp0 : 0 ≤ p0) (cs : List Cell) : ∀ used : Nat,
    occCount cs ≤ used →
    (seqAddSweep s p0 p1 d cs used).2.1 + occCount cs
        = used + occCount (seqAddSweep s p0 p1 d cs used).1 ∧
    occCount (seqAddSweep s p0 p1 d cs used).1 ≤ occCount cs := by
  induction cs with
  | nil => intro used h; simp [seqAddSweep, occCount_nil]
  | cons c rest ih =>
    intro used h
    rw [occCount_cons] at h
    unfold seqAddSweep
    dsimp only
    split_ifs <;>
      first
        | (exfalso; simp_all; done)
        | (simp only [occCount_cons]
           try dsimp only at *
           try simp only [if_neg (show ¬(0 : Int) ≤ -1 by norm_num)]
           try simp only [if_pos (show (0 : Int) ≤ c.pos by omega)]
           try simp only [if_neg (show ¬(0 : Int) ≤ c.pos by omega)]
           try simp only [if_pos (show (0 : Int) ≤ c.pos + d by omega)]
           try simp only [if_pos (show (0 : Int) ≤ c.pos by omega)] at h
           try simp only [if_neg (show ¬(0 : Int) ≤ c.pos by omega)] at h
           first
             | (obtain ⟨ih1, ih2⟩ := ih (used - 1) (by omega)
                omega)
             | (obtain ⟨ih1, ih2⟩ := ih used (by omega)
                omega))

/-! ### The transformer search and stamping -/

theorem getD_nonneg (l : List Int) (h : ∀ p ∈ l, 0 ≤ p) (k : Nat) : 0 ≤ l.getD k 0 := by
  rcases Nat.lt_or_ge k l.length with hk | hk
  · rw [List.getD_eq_getElem?_getD, List.getElem?_eq_getElem hk]
    exact h _ (List.getElem_mem hk)
  · rw [List.getD_eq_getElem?_getD, List.getElem?_eq_none hk]
    simp

/-- A successful transformer search returns a start position of a run of
`n_tokens` empty cells within bounds, and leaves `head` there. -/
theorem findLoop_some_run (cs : List Cell) (size n_tokens : Nat) : ∀ fuel hd nt p q : Nat,
    findLoop cs size n_tokens fuel hd nt = (some p, q) →
    q = p ∧ p + n_tokens ≤ size ∧ ∀ i < n_tokens, (cellGet cs (p + i)).pos < 0 := by
  intro fuel
  induction fuel with
  | zero =>
    intro hd nt p q hres
    exact absurd hres (by simp [findLoop])
  | succ fuel ih =>
    intro hd nt p q hres
    unfold findLoop at hres
    split_ifs at hres with hw
    · exact ih 0 _ p q hres
    · rcases hfo : firstOcc cs hd n_tokens with _ | i
      · rw [hfo] at hres
        have h1 : hd = p ∧ hd = q := by
          simpa using hres
        obtain ⟨rfl, rfl⟩ := h1
        refine ⟨rfl, by omega, fun i hi => ?_⟩
        have := List.find?_eq_none.mp hfo i (by simpa using hi)
        simpa using this
      · rw [hfo] at hres
        dsimp only at hres
        split_ifs at hres with hf
        · exact absurd hres (by simp)
        · exact ih _ _ p q hres

/-- Effect of the partial inner stamping loop (first `m` tokens of group
`s`) on the occupied count and the untouched cells. -/
theorem stampInner (u : Ubatch) (hd s : Nat) : ∀ (m : Nat) (cs : List Cell),
    m ≤ u.n_seq_tokens →
    (hd + s * u.n_seq_tokens) + u.n_seq_tokens ≤ cs.length →
    (∀ i < u.n_seq_tokens, (cellGet cs (hd + (s * u.n_seq_tokens + i))).pos < 0) →
    (∀ p ∈ u.pos, 0 ≤ p) →
    occCount ((List.range m).foldl (fun cs i =>
        let k := s * u.n_seq_tokens + i
        modifyCell cs (hd + k) (fun c =>
          { c with
            pos := u.pos.getD k 0
            seq_id := (u.seq_id.getD s []).foldl (fun t q => insert q t) c.seq_id })) cs)
        = occCount cs + m ∧
    (∀ j : Nat, (j < hd + s * u.n_seq_tokens ∨ hd + s * u.n_seq_tokens + m ≤ j) →
      cellGet ((List.range m).foldl (fun cs i =>
        let k := s * u.n_seq_tokens + i
        modifyCell cs (hd + k) (fun c =>
          { c with
            pos := u.pos.getD k 0
            seq_id := (u.seq_id.getD s []).foldl (fun t q => insert q t) c.seq_id })) cs) j
        = cellGet cs j) ∧
    ((List.range m).foldl (fun cs i =>
        let k := s * u.n_seq_tokens + i
        modifyCell cs (hd + k) (fun c =>
          { c with
            pos := u.pos.getD k 0
            seq_id := (u.seq_id.getD s []).foldl (fun t q => insert q t) c.seq_id })) cs).length
      = cs.length := by
  intro m
  induction m with
  | zero => intro cs _ _ _ _; exact ⟨by simp, fun j _ => rfl, rfl⟩
  | succ m ih =>
    intro cs hm hlen hneg hpos
    obtain ⟨ih1, ih2, ih3⟩ := ih cs (by omega) hlen hneg hpos
    rw [List.range_succ]
    simp only [List.foldl_append, List.foldl_cons, List.foldl_nil]
    try dsimp only
    set base := (List.range m).foldl (fun cs i =>
        let k := s * u.n_seq_tokens + i
        modifyCell cs (hd + k) (fun c =>
          { c with
            pos := u.pos.getD k 0
            seq_id := (u.seq_id.getD s []).foldl (fun t q => insert q t) c.seq_id })) cs with hbase
    have hidx : hd + (s * u.n_seq_tokens + m) < base.length := by
      rw [ih3]; omega
    have hbcell : cellGet base (hd + (s * u.n_seq_tokens + m))
        = cellGet cs (hd + (s * u.n_seq_tokens + m)) := ih2 _ (by omega)
    have hnegm : (cellGet base (hd + (s * u.n_seq_tokens + m))).pos < 0 := by
      rw [hbcell]; exact hneg m (by omega)
    have hocc := occCount_modify base (hd + (s * u.n_seq_tokens + m))
      (fun c => { c with
        pos := u.pos.getD (s * u.n_seq_tokens + m) 0
        seq_id := (u.seq_id.getD s []).foldl (fun t q => insert q t) c.seq_id }) hidx
    rw [if_neg (by omega)] at hocc
    rw [if_pos (show (0 : Int) ≤ u.pos.getD (s * u.n_seq_tokens + m) 0 from
      getD_nonneg u.pos hpos _)] at hocc
    refine ⟨by omega, fun j hj => ?_, ?_⟩
    · rw [cellGet_modify_ne _ _ _ _ (by omega)]
      exact ih2 j (by omega)
    · rw [modifyCell_length, ih3]

/-! ### C3: failing transformer `find_slot` mutates only `head` -/

/-- C3 (amended): when the transformer `find_slot` fails, every cell,
`used`, `has_shift`, `do_defrag`, `n` and the static flags are
unchanged; only `head` may have been moved by the search (the C++ scan
advances the member `head` in place and does not restore it on
failure). -/
theorem find_slot_fail_frame (st : State) (u : Ubatch) (hrec : st.recurrent = false)
    (hfail : (st.find_slot u).2.ok = false) :
    (st.find_slot u).1.cells = st.cells ∧
    (st.find_slot u).1.used = st.used ∧
    (st.find_slot u).1.has_shift = st.has_shift ∧
    (st.find_slot u).1.do_defrag = st.do_defrag ∧
    (st.find_slot u).1.n = st.n ∧
    (st.find_slot u).1.recurrent = st.recurrent := by
  unfold State.find_slot findSlotTrans at hfail ⊢
  rw [hrec] at hfail ⊢
  simp only [Bool.false_eq_true, if_false] at hfail ⊢
  split_ifs at hfail ⊢
  · exact ⟨rfl, rfl, rfl, rfl, rfl, hrec⟩
  · rcases hres : findLoop st.cells st.size u.n_tokens (2 * st.size + 2) st.head 0 with ⟨o, hd'⟩
    cases o with
    | none => exact ⟨rfl, rfl, rfl, rfl, rfl, rfl⟩
    | some hd =>
      rw [hres] at hfail
      exact Bool.noConfusion hfail

/-- Counterexample for C3 as stated: on a full cache of size 1 the
failing search leaves `head = 1` where it was `0` before the call, so
the state is mutated on failure. -/
theorem find_slot_fail_mutates_head_cex :
    (stC3.find_slot uOne).2.ok = false ∧
    stC3.head = 0 ∧ (stC3.find_slot uOne).1.head = 1 ∧
    (stC3.find_slot uOne).1 ≠ stC3 := by decide

/-- Witness for C3 at a concrete input: the failing call on the full
size-1 cache. -/
theorem find_slot_fail_frame_witness :
    (stC3.recurrent = false ∧ (stC3.find_slot uOne).2.ok = false) ∧
    ((stC3.find_slot uOne).1.cells = stC3.cells ∧
      (stC3.find_slot uOne).1.used = stC3.used ∧
      (stC3.find_slot uOne).1.has_shift = stC3.has_shift ∧
      (stC3.find_slot uOne).1.do_defrag = stC3.do_defrag ∧
      (stC3.find_slot uOne).1.n = stC3.n ∧
      (stC3.find_slot uOne).1.recurrent = stC3.recurrent) :=
  ⟨by decide, find_slot_fail_frame stC3 uOne (by decide) (by decide)⟩

/-! ### C4: the recurrent tail invariant is broken by `seq_rm(-1, …)` -/

/-- C4 (code bug): after the public operations `find_slot(uR)` and
`seq_rm(-1, -1, -1)` on a recurrent cache of size 1, sequence 0 still
has `cells[0].tail = 0 ≥ 0` but cell 0's seq-id set no longer contains
0 (it is empty): the full-range `seq_rm` sweep clears the cells without
resetting the `tail` back-pointers, violating the invariant that the
code's own debug tail verification and the
`GGML_ASSERT(cell.has_seq_id(seq_id))` in the next `find_slot` rely
on. -/
theorem stale_tail_after_full_seq_rm :
    stR2 = step (step (initState true 1) (Op.op_find uR)) (Op.op_rm (-1) (-1) (-1)) ∧
    0 ≤ (cellGet stR2.cells 0).tail ∧
    (0 : Int) ∉ (cellGet stR2.cells ((cellGet stR2.cells 0).tail).toNat).seq_id ∧
    (cellGet stR2.cells ((cellGet stR2.cells 0).tail).toNat).seq_id = ∅ :=
  ⟨rfl, by decide, by decide, by decide⟩

/-! ### C7: what `clear` does and does not erase -/

/-- C7 (amended): `clear` resets every cell's `pos`, `src`, `tail` and
seq-id set together with `head` and `used`, but leaves each cell's
`delta` and the `has_shift`/`do_defrag`/`n` fields: two states of the
same size and mode that also agree on those residual fields become
literally identical after `clear`, and hence any subsequent operation
yields identical end states. -/
theorem clear_erases_history (s1 s2 : State) (op : Op)
    (hsz : s1.cells.length = s2.cells.length)
    (hrec : s1.recurrent = s2.recurrent)
    (hdelta : s1.cells.map Cell.delta = s2.cells.map Cell.delta)
    (hsh : s1.has_shift = s2.has_shift)
    (hdf : s1.do_defrag = s2.do_defrag)
    (hn : s1.n = s2.n) :
    s1.clear = s2.clear ∧ step s1.clear op = step s2.clear op := by
  have h : s1.clear = s2.clear := by
    unfold State.clear
    cases s1
    cases s2
    simp only [State.mk.injEq]
    refine ⟨hrec, ?_, by trivial, by trivial, hsh, hdf, hn⟩
    have h1 : ∀ cs : List Cell,
        cs.map (fun c : Cell =>
          ({ pos := -1, seq_id := ∅, src := -1, tail := -1, delta := c.delta } : Cell))
          = (cs.map Cell.delta).map (fun d : Int =>
              ({ pos := -1, seq_id := ∅, src := -1, tail := -1, delta := d } : Cell)) := by
      intro cs
      rw [List.map_map]
      rfl
    rw [h1, h1, hdelta]
  exact ⟨h, by rw [h]⟩

/-- Counterexample for C7 as stated: `stH` and the freshly initialized
cache are both reachable and have the same size, yet running `clear` and
then the same operation yields different end states (they differ in
`has_shift` and in the cell's `delta`, which `clear` does not reset). -/
theorem clear_history_cex :
    Reach stH ∧ Reach (initState false 1) ∧ stH.size = (initState false 1).size ∧
    step stH.clear (Op.op_rm 0 (-1) (-1))
      ≠ step (initState false 1).clear (Op.op_rm 0 (-1) (-1)) :=
  ⟨Reach.step (Op.op_add 0 0 1 1) (Reach.step (Op.op_find uOne) (Reach.init false 1)),
   Reach.init false 1, by decide, by decide⟩

/-- Effect of the partial outer stamping loop (first `m` groups) on the
occupied count and on the cells above the stamped region. -/
theorem stampOuter (u : Ubatch) (hd : Nat) (cs : List Cell)
    (hlen : hd + u.n_seqs * u.n_seq_tokens ≤ cs.length)
    (hneg : ∀ k < u.n_seqs * u.n_seq_tokens, (cellGet cs (hd + k)).pos < 0)
    (hpos : ∀ p ∈ u.pos, 0 ≤ p) : ∀ m, m ≤ u.n_seqs →
    occCount ((List.range m).foldl (fun cs s =>
        (List.range u.n_seq_tokens).foldl (fun cs i =>
          let k := s * u.n_seq_tokens + i
          modifyCell cs (hd + k) (fun c =>
            { c with
              pos := u.pos.getD k 0
              seq_id := (u.seq_id.getD s []).foldl (fun t q => insert q t) c.seq_id })) cs) cs)
      = occCount cs + m * u.n_seq_tokens ∧
    (∀ j : Nat, hd + m * u.n_seq_tokens ≤ j →
      cellGet ((List.range m).foldl (fun cs s =>
        (List.range u.n_seq_tokens).foldl (fun cs i =>
          let k := s * u.n_seq_tokens + i
          modifyCell cs (hd + k) (fun c =>
            { c with
              pos := u.pos.getD k 0
              seq_id := (u.seq_id.getD s []).foldl (fun t q => insert q t) c.seq_id })) cs) cs) j
        = cellGet cs j) ∧
    ((List.range m).foldl (fun cs s =>
        (List.range u.n_seq_tokens).foldl (fun cs i =>
          let k := s * u.n_seq_tokens + i
          modifyCell cs (hd + k) (fun c =>
            { c with
              pos := u.pos.getD k 0
              seq_id := (u.seq_id.getD s []).foldl (fun t q => insert q t) c.seq_id })) cs) cs).length
      = cs.length := by
  intro m
  induction m with
  | zero => intro _; exact ⟨by simp, fun j _ => rfl, rfl⟩
  | succ m ih =>
    intro hm
    obtain ⟨ih1, ih2, ih3⟩ := ih (by omega)
    have hmul : (m + 1) * u.n_seq_tokens = m * u.n_seq_tokens + u.n_seq_tokens :=
      Nat.succ_mul m u.n_seq_tokens
    have hmul2 : (m + 1) * u.n_seq_tokens ≤ u.n_seqs * u.n_seq_tokens :=
      Nat.mul_le_mul_right _ hm
    rw [List.range_succ]
    simp only [List.foldl_append, List.foldl_cons, List.foldl_nil]
    try dsimp only
    set base := (List.range m).foldl (fun cs s =>
        (List.range u.n_seq_tokens).foldl (fun cs i =>
          let k := s * u.n_seq_tokens + i
          modifyCell cs (hd + k) (fun c =>
            { c with
              pos := u.pos.getD k 0
              seq_id := (u.seq_id.getD s []).foldl (fun t q => insert q t) c.seq_id })) cs) cs
      with hbase
    have hlen' : (hd + m * u.n_seq_tokens) + u.n_seq_tokens ≤ base.length := by
      rw [ih3]; omega
    have hneg' : ∀ i < u.n_seq_tokens,
        (cellGet base (hd + (m * u.n_seq_tokens + i))).pos < 0 := by
      intro i hi
      rw [ih2 _ (by omega)]
      exact hneg (m * u.n_seq_tokens + i) (by omega)
    obtain ⟨s1, s2, s3⟩ :=
      stampInner u hd m u.n_seq_tokens base le_rfl hlen' hneg' hpos
    refine ⟨?_, fun j hj => ?_, ?_⟩
    · rw [s1, ih1]; omega
    · rw [s2 j (Or.inr (by omega))]
      exact ih2 j (by omega)
    · rw [s3, ih3]

/-- `stampCells` turns a run of `n_seqs · n_seq_tokens` empty cells at
`hd` into occupied cells (non-negative batch positions), raising the
occupied count by exactly the token count. -/
theorem stampCells_occ (u : Ubatch) (cs : List Cell) (hd : Nat)
    (hlen : hd + u.n_seqs * u.n_seq_tokens ≤ cs.length)
    (hneg : ∀ k < u.n_seqs * u.n_seq_tokens, (cellGet cs (hd + k)).pos < 0)
    (hpos : ∀ p ∈ u.pos, 0 ≤ p) :
    occCount (stampCells cs hd u) = occCount cs + u.n_seqs * u.n_seq_tokens :=
  (stampOuter u hd cs hlen hneg hpos u.n_seqs le_rfl).1

/-! ### Every operation preserves the static mode flag -/

theorem seq_rm_recurrent (st : State) (s p0 p1 : Int) :
    (st.seq_rm s p0 p1).1.recurrent = st.recurrent := by
  unfold State.seq_rm seqRmFinish
  dsimp only
  split_ifs <;> rfl

theorem seq_cp_recurrent (st : State) (src dst p0 p1 : Int) :
    (st.seq_cp src dst p0 p1).recurrent = st.recurrent := by
  unfold State.seq_cp
  dsimp only
  split_ifs <;> rfl

theorem seq_keep_recurrent (st : State) (s : Int) :
    (st.seq_keep s).recurrent = st.recurrent := rfl

theorem seq_div_recurrent (st : State) (s p0 p1 d : Int) :
    (st.seq_div s p0 p1 d).recurrent = st.recurrent := by
  unfold State.seq_div
  dsimp only
  split_ifs <;> rfl

theorem find_slot_recurrent (st : State) (u : Ubatch) :
    (st.find_slot u).1.recurrent = st.recurrent := by
  unfold State.find_slot findSlotTrans findSlotRec
  split_ifs
  · rcases hE : p1outer u st.size (List.range u.n_seqs) st.cells st.used with r | r <;> rfl
  · rfl
  · rcases hres : findLoop st.cells st.size u.n_tokens (2 * st.size + 2) st.head 0 with ⟨o, hd'⟩
    cases o <;> rfl

theorem step_recurrent (st : State) (op : Op) : (step st op).recurrent = st.recurrent := by
  cases op with
  | op_clear => rfl
  | op_rm s p0 p1 => exact seq_rm_recurrent st s p0 p1
  | op_cp src dst p0 p1 => exact seq_cp_recurrent st src dst p0 p1
  | op_keep s => exact seq_keep_recurrent st s
  | op_add s p0 p1 d => exact seq_add_recurrent st s p0 p1 d
  | op_div s p0 p1 d => exact seq_div_recurrent st s p0 p1 d
  | op_find u => exact find_slot_recurrent st u
  | op_defrag =>
    unfold step State.defrag
    split_ifs <;> rfl

/-! ### Every well-formed transformer operation preserves the count -/

theorem step_used_inv (st : State) (op : Op) (hrec : st.recurrent = false)
    (hwf : wfOp op) (h : st.used = occCount st.cells) :
    (step st op).used = occCount (step st op).cells := by
  cases op with
  | op_clear =>
    show st.clear.used = occCount st.clear.cells
    unfold State.clear
    dsimp only
    symm
    simp only [occCount, List.countP_map]
    exact List.countP_eq_zero.mpr (fun c _ => by simp)
  | op_rm s p0 p1 =>
    show (st.seq_rm s p0 p1).1.used = occCount (st.seq_rm s p0 p1).1.cells
    unfold State.seq_rm seqRmFinish
    rw [hrec]
    simp only [Bool.false_eq_true, if_false]
    try dsimp only
    obtain ⟨h1, h2⟩ := seqRmSweep_used s (if p0 < 0 then 0 else p0)
      (if p1 < 0 then llamaPosMax else p1) st.cells st.used (le_of_eq h.symm)
    omega
  | op_cp src dst p0 p1 =>
    show (st.seq_cp src dst p0 p1).used = occCount (st.seq_cp src dst p0 p1).cells
    unfold State.seq_cp
    rw [hrec]
    simp only [Bool.false_eq_true, if_false]
    try dsimp only
    split_ifs
    · exact h
    all_goals
      rw [occCount_map_congr _ _ (fun c => by unfold cpF; split <;> exact Iff.rfl)]
      exact h
  | op_keep s =>
    show (st.seq_keep s).used = occCount (st.seq_keep s).cells
    unfold State.seq_keep
    dsimp only
    obtain ⟨h1, h2⟩ := seqKeepSweep_used st.recurrent s st.cells 0 st.used (le_of_eq h.symm)
    omega
  | op_add s p0 p1 d =>
    show (st.seq_add s p0 p1 d).used = occCount (st.seq_add s p0 p1 d).cells
    unfold State.seq_add
    rw [hrec]
    simp only [Bool.false_eq_true, if_false]
    try dsimp only
    set P0 := if p0 < 0 then (0 : Int) else p0 with hP0
    set P1 := if p1 < 0 then llamaPosMax else p1 with hP1
    have hP0nn : 0 ≤ P0 := by rw [hP0]; split <;> omega
    split_ifs
    · exact h
    · exact h
    · try dsimp only
      obtain ⟨h1, h2⟩ := seqAddSweep_used s P0 P1 d hP0nn st.cells st.used (le_of_eq h.symm)
      omega
  | op_div s p0 p1 d =>
    show (st.seq_div s p0 p1 d).used = occCount (st.seq_div s p0 p1 d).cells
    unfold State.seq_div
    rw [hrec]
    simp only [Bool.false_eq_true, if_false]
    try dsimp only
    have hd1 : (1 : Int) ≤ d := hwf
    set P0 := if p0 < 0 then (0 : Int) else p0 with hP0
    set P1 := if p1 < 0 then llamaPosMax else p1 with hP1
    have hP0nn : 0 ≤ P0 := by rw [hP0]; split <;> omega
    split_ifs with h1 h2
    · exact h
    · exact h
    · try dsimp only
      rw [occCount_map_congr _ _ (fun c => ?_)]
      · exact h
      · unfold divF
        split_ifs with hc
        · obtain ⟨hc1, hc2, hc3⟩ := hc
          exact iff_of_true
            (by dsimp only; exact Int.tdiv_nonneg (by omega) (by omega)) (by omega)
        · exact Iff.rfl
  | op_find u =>
    show (st.find_slot u).1.used = occCount (st.find_slot u).1.cells
    unfold State.find_slot findSlotTrans
    rw [hrec]
    simp only [Bool.false_eq_true, if_false]
    split_ifs
    · exact h
    · rcases hres : findLoop st.cells st.size u.n_tokens (2 * st.size + 2) st.head 0
        with ⟨o, hd'⟩
      cases o with
      | none => exact h
      | some hd =>
        obtain ⟨hq, hle, hrun⟩ :=
          findLoop_some_run st.cells st.size u.n_tokens (2 * st.size + 2) st.head 0 hd hd' hres
        try dsimp only
        have hsz : st.size = st.cells.length := rfl
        have hn : u.n_tokens = u.n_seqs * u.n_seq_tokens := hwf.1
        rw [stampCells_occ u st.cells hd (by omega)
          (fun k hk => hrun k (by omega)) hwf.2]
        omega
  | op_defrag =>
    show st.defrag.used = occCount st.defrag.cells
    unfold State.defrag
    split_ifs <;> exact h

/-- Conjunction carried through the reachability induction: transformer
mode is preserved and `used` counts the occupied cells. -/
theorem treach_main (st : State) (h : TReach st) :
    st.recurrent = false ∧ st.used = occCount st.cells := by
  induction h with
  | init sz => exact ⟨rfl, (occCount_replicate_default sz).symm⟩
  | step op hT hwf ih =>
    exact ⟨(step_recurrent _ op).trans ih.1, step_used_inv _ op ih.1 hwf ih.2⟩

/-- C1 (amended): starting from a fresh non-recurrent cache, after every
sequence of the public operations (`find_slot`, `seq_rm`, `seq_cp`,
`seq_keep`, `seq_add`, `seq_div`, `clear`, `defrag`) whose arguments are
well-formed (`seq_div` divisor ≥ 1 and `find_slot` batches with
`n_tokens = n_seqs·n_seq_tokens` and non-negative positions), the
counter `used` equals the number of cells with `pos ≥ 0`.  (The
unrestricted claim fails: see the counterexample, where a negative
`seq_div` divisor drives a cell's `pos` negative without decrementing
`used`; a recurrent-mode `seq_add` with a large negative delta does the
same.) -/
theorem used_eq_occupied (st : State) (h : TReach st) : st.used = occCount st.cells :=
  (treach_main st h).2

/-- Witness for C1 at a concrete input: the size-1 cache after one
well-formed `find_slot`. -/
theorem used_eq_occupied_witness : stC3.used = occCount stC3.cells :=
  used_eq_occupied stC3
    (TReach.step (Op.op_find uOne) (TReach.init 1) ⟨rfl, by decide⟩)

/-- Counterexample for C1 as stated (arbitrary public operations): after
`find_slot` of one token at position 1 and `seq_div(0, 0, 2, -1)` —
both public operations from the initial state — `used` is 1 but no cell
has `pos ≥ 0`. -/
theorem used_counter_cex :
    Reach stDiv ∧ stDiv.used = 1 ∧ occCount stDiv.cells = 0 ∧
    stDiv.used ≠ occCount stDiv.cells :=
  ⟨Reach.step (Op.op_div 0 0 2 (-1)) (Reach.step (Op.op_find uP) (Reach.init false 1)),
   by decide, by decide, by decide⟩

/-- Witness for C7 at concrete inputs: `stH` and `stH` after removing
sequence 0 differ in their cells, yet agree on size, mode, deltas and
flags, so `clear` followed by `seq_cp(0, 1, -1, -1)` coincides on
them. -/
theorem clear_erases_history_witness :
    ((stH.cells.length = (step stH (Op.op_rm 0 (-1) (-1))).cells.length ∧
       stH.recurrent = (step stH (Op.op_rm 0 (-1) (-1))).recurrent ∧
       stH.cells.map Cell.delta = (step stH (Op.op_rm 0 (-1) (-1))).cells.map Cell.delta ∧
       stH.has_shift = (step stH (Op.op_rm 0 (-1) (-1))).has_shift ∧
       stH.do_defrag = (step stH (Op.op_rm 0 (-1) (-1))).do_defrag ∧
       stH.n = (step stH (Op.op_rm 0 (-1) (-1))).n) ∧
     stH.cells ≠ (step stH (Op.op_rm 0 (-1) (-1))).cells) ∧
    (stH.clear = (step stH (Op.op_rm 0 (-1) (-1))).clear ∧
      step stH.clear (Op.op_cp 0 1 (-1) (-1))
        = step (step stH (Op.op_rm 0 (-1) (-1))).clear (Op.op_cp 0 1 (-1) (-1))) :=
  ⟨by decide,
   clear_erases_history stH (step stH (Op.op_rm 0 (-1) (-1))) (Op.op_cp 0 1 (-1) (-1))
     (by decide) (by decide) (by decide) (by decide) (by decide) (by decide)⟩

/-! ### C2: full characterization of the transformer `find_slot` -/

theorem firstOcc_some (cs : List Cell) (hd n_tokens i : Nat)
    (h : firstOcc cs hd n_tokens = some i) :
    i < n_tokens ∧ 0 ≤ (cellGet cs (hd + i)).pos := by
  unfold firstOcc at h
  have h1 := List.find?_some h
  have h2 := List.mem_of_find?_eq_some h
  rw [List.mem_range] at h2
  rw [decide_eq_true_eq] at h1
  exact ⟨h2, h1⟩

theorem mem_foldl_insert (l : List Int) : ∀ (t : Finset Int) (x : Int),
    (x ∈ l.foldl (fun t q => insert q t) t) ↔ (x ∈ t ∨ x ∈ l) := by
  induction l with
  | nil => intro t x; simp
  | cons a l ih =>
    intro t x
    simp only [List.foldl_cons, ih, Finset.mem_insert, List.mem_cons]
    tauto

/-- The search loop never skips a run: with no run strictly below the
cursor, a successful result `p` has no run strictly below `p`. -/
theorem findLoop_min2 (cs : List Cell) (size n_tokens : Nat) : ∀ (fuel hd nt p q : Nat),
    (∀ r, r < hd → ¬ isRun cs size n_tokens r) →
    findLoop cs size n_tokens fuel hd nt = (some p, q) →
    ∀ r, r < p → ¬ isRun cs size n_tokens r := by
  intro fuel
  induction fuel with
  | zero => intro hd nt p q _ hres; exact absurd hres (by simp [findLoop])
  | succ fuel ih =>
    intro hd nt p q hinv hres
    unfold findLoop at hres
    split_ifs at hres with hwrap
    · exact ih 0 _ p q (fun r hr => absurd hr (Nat.not_lt_zero r)) hres
    · rcases hocc : firstOcc cs hd n_tokens with _ | i
      · rw [hocc] at hres
        injection hres with h1 h2
        injection h1 with h1
        subst h1
        exact hinv
      · rw [hocc] at hres
        try dsimp only at hres
        obtain ⟨hilt, hioc⟩ := firstOcc_some cs hd n_tokens i hocc
        split_ifs at hres with hfail
        · simp at hres
        · refine ih (hd + i + 1) _ p q ?_ hres
          intro r hr
          rcases Nat.lt_or_ge r hd with hcase | hcase
          · exact hinv r hcase
          · intro hrun
            obtain ⟨hb, hall⟩ := hrun
            have heq : r + (hd + i - r) = hd + i := by omega
            have hlt := hall (hd + i - r) (by omega)
            rw [heq] at hlt
            omega

/-- The search loop finds the first run in scan order: starting at a
cursor at or past `hd0` with no run in `[hd0, cursor)`, a successful
result `p` either lies at or past `hd0` with no run in `[hd0, p)`, or
the scan wrapped: no run at or past `hd0` at all and none below `p`. -/
theorem findLoop_min1 (cs : List Cell) (size n_tokens hd0 : Nat) : ∀ (fuel hd nt p q : Nat),
    hd0 ≤ hd →
    (∀ r, hd0 ≤ r → r < hd → ¬ isRun cs size n_tokens r) →
    findLoop cs size n_tokens fuel hd nt = (some p, q) →
    ((hd0 ≤ p ∧ ∀ r, hd0 ≤ r → r < p → ¬ isRun cs size n_tokens r) ∨
      ((∀ r, hd0 ≤ r → ¬ isRun cs size n_tokens r) ∧
        ∀ r, r < p → ¬ isRun cs size n_tokens r)) := by
  intro fuel
  induction fuel with
  | zero => intro hd nt p q _ _ hres; exact absurd hres (by simp [findLoop])
  | succ fuel ih =>
    intro hd nt p q hge hinv hres
    unfold findLoop at hres
    split_ifs at hres with hwrap
    · have hnone : ∀ r, hd0 ≤ r → ¬ isRun cs size n_tokens r := by
        intro r hr hrun
        rcases Nat.lt_or_ge r hd with hcase | hcase
        · exact hinv r hr hcase hrun
        · obtain ⟨hb, _⟩ := hrun
          omega
      exact Or.inr ⟨hnone, findLoop_min2 cs size n_tokens fuel 0 _ p q
        (fun r hr => absurd hr (Nat.not_lt_zero r)) hres⟩
    · rcases hocc : firstOcc cs hd n_tokens with _ | i
      · rw [hocc] at hres
        injection hres with h1 h2
        injection h1 with h1
        subst h1
        exact Or.inl ⟨hge, hinv⟩
      · rw [hocc] at hres
        try dsimp only at hres
        obtain ⟨hilt, hioc⟩ := firstOcc_some cs hd n_tokens i hocc
        split_ifs at hres with hfail
        · simp at hres
        · refine ih (hd + i + 1) _ p q (by omega) ?_ hres
          intro r hr0 hr
          rcases Nat.lt_or_ge r hd with hcase | hcase
          · exact hinv r hr0 hcase
          · intro hrun
            obtain ⟨hb, hall⟩ := hrun
            have heq : r + (hd + i - r) = hd + i := by omega
            have hlt := hall (hd + i - r) (by omega)
            rw [heq] at hlt
            omega

/-- Completeness of the scan before any wrap: a run at `p` at or past
the cursor is found (with enough fuel) while the tested count stays
under `size`. -/
theorem findLoop_complete_ge (cs : List Cell) (size n_tokens p : Nat)
    (hp : p + n_tokens ≤ size)
    (hrun : ∀ i < n_tokens, (cellGet cs (p + i)).pos < 0) :
    ∀ (fuel hd nt : Nat), hd ≤ p → p - hd < fuel → nt + (p - hd) < size →
    ∃ a b, findLoop cs size n_tokens fuel hd nt = (some a, b) := by
  intro fuel
  induction fuel with
  | zero => intro hd nt h1 h2 h3; exact absurd h2 (by omega)
  | succ fuel ih =>
    intro hd nt h1 h2 h3
    unfold findLoop
    split_ifs with hwrap
    · exact absurd hwrap (by omega)
    · rcases hocc : firstOcc cs hd n_tokens with _ | i
      · exact ⟨hd, hd, rfl⟩
      · try dsimp only
        obtain ⟨hilt, hioc⟩ := firstOcc_some cs hd n_tokens i hocc
        have hlt : hd + i + 1 ≤ p := by
          by_contra hcon
          have heq : p + (hd + i - p) = hd + i := by omega
          have hmem := hrun (hd + i - p) (by omega)
          rw [heq] at hmem
          omega
        rw [if_neg (by omega)]
        exact ih (hd + i + 1) (nt + i + 1) (by omega) (by omega) (by omega)

/-- Completeness across the wrap: a run strictly below the starting
cursor `hd0 ≤ size` is still found, because the tested count at the wrap
is exactly `size - hd0`. -/
theorem findLoop_complete_wrap (cs : List Cell) (size n_tokens p hd0 : Nat)
    (hp : p + n_tokens ≤ size)
    (hrun : ∀ i < n_tokens, (cellGet cs (p + i)).pos < 0)
    (hplt : p < hd0) (hsz : hd0 ≤ size) :
    ∀ (fuel hd : Nat), hd0 ≤ hd → hd ≤ size → (size - hd) + p + 2 ≤ fuel →
    ∃ a b, findLoop cs size n_tokens fuel hd (hd - hd0) = (some a, b) := by
  intro fuel
  induction fuel with
  | zero => intro hd h1 h2 h3; exact absurd h3 (by omega)
  | succ fuel ih =>
    intro hd h1 h2 h3
    unfold findLoop
    split_ifs with hwrap
    · have harg : hd - hd0 + (size - hd) = size - hd0 := by omega
      rw [harg]
      exact findLoop_complete_ge cs size n_tokens p hp hrun fuel 0 (size - hd0)
        (by omega) (by omega) (by omega)
    · rcases hocc : firstOcc cs hd n_tokens with _ | i
      · exact ⟨hd, hd, rfl⟩
      · try dsimp only
        obtain ⟨hilt, hioc⟩ := firstOcc_some cs hd n_tokens i hocc
        have hib : hd + i < size := by omega
        rw [if_neg (by omega)]
        have harg : hd - hd0 + i + 1 = hd + i + 1 - hd0 := by omega
        rw [harg]
        exact ih (hd + i + 1) (by omega) (by omega) (by omega)

/-- Per-cell effect of the inner stamping loop (first `m` tokens of
group `s`): cells outside the block are untouched, cell `hd + s·nst + i`
gets the batch position `s·nst + i` and the group's seq ids, and the
length is preserved. -/
theorem stampInnerGet (u : Ubatch) (hd s : Nat) : ∀ (m : Nat) (cs : List Cell),
    m ≤ u.n_seq_tokens →
    (hd + s * u.n_seq_tokens) + u.n_seq_tokens ≤ cs.length →
    (∀ j : Nat, (j < hd + s * u.n_seq_tokens ∨ hd + s * u.n_seq_tokens + m ≤ j) →
      cellGet ((List.range m).foldl (fun cs i =>
        let k := s * u.n_seq_tokens + i
        modifyCell cs (hd + k) (fun c =>
          { c with
            pos := u.pos.getD k 0
            seq_id := (u.seq_id.getD s []).foldl (fun t q => insert q t) c.seq_id })) cs) j
        = cellGet cs j) ∧
    (∀ i : Nat, i < m →
      cellGet ((List.range m).foldl (fun cs i =>
        let k := s * u.n_seq_tokens + i
        modifyCell cs (hd + k) (fun c =>
          { c with
            pos := u.pos.getD k 0
            seq_id := (u.seq_id.getD s []).foldl (fun t q => insert q t) c.seq_id })) cs)
          (hd + (s * u.n_seq_tokens + i))
        = { cellGet cs (hd + (s * u.n_seq_tokens + i)) with
            pos := u.pos.getD (s * u.n_seq_tokens + i) 0
            seq_id := (u.seq_id.getD s []).foldl (fun t q => insert q t)
              (cellGet cs (hd + (s * u.n_seq_tokens + i))).seq_id }) ∧
    ((List.range m).foldl (fun cs i =>
        let k := s * u.n_seq_tokens + i
        modifyCell cs (hd + k) (fun c =>
          { c with
            pos := u.pos.getD k 0
            seq_id := (u.seq_id.getD s []).foldl (fun t q => insert q t) c.seq_id })) cs).length
      = cs.length := by
  intro m
  induction m with
  | zero => intro cs _ _; exact ⟨fun j _ => rfl, fun i hi => absurd hi (by omega), rfl⟩
  | succ m ih =>
    intro cs hm hlen
    obtain ⟨ih1, ih2, ih3⟩ := ih cs (by omega) hlen
    rw [List.range_succ]
    simp only [List.foldl_append, List.foldl_cons, List.foldl_nil]
    try dsimp only
    set base := (List.range m).foldl (fun cs i =>
        let k := s * u.n_seq_tokens + i
        modifyCell cs (hd + k) (fun c =>
          { c with
            pos := u.pos.getD k 0
            seq_id := (u.seq_id.getD s []).foldl (fun t q => insert q t) c.seq_id })) cs with hbase
    have hidx : hd + (s * u.n_seq_tokens + m) < base.length := by
      rw [ih3]; omega
    refine ⟨fun j hj => ?_, fun i hi => ?_, ?_⟩
    · rw [cellGet_modify_ne _ _ _ _ (by omega)]
      exact ih1 j (by omega)
    · rcases Nat.lt_or_ge i m with hc | hc
      · rw [cellGet_modify_ne _ _ _ _ (by omega)]
        exact ih2 i hc
      · have him : i = m := by omega
        subst him
        rw [cellGet_modify_eq _ _ _ hidx, ih1 _ (by omega)]
    · rw [modifyCell_length, ih3]

/-- Per-cell effect of the outer stamping loop over the first `m` seq-id
groups. -/
theorem stampOuterGet (u : Ubatch) (hd : Nat) (cs : List Cell)
    (hlen : hd + u.n_seqs * u.n_seq_tokens ≤ cs.length) : ∀ m, m ≤ u.n_seqs →
    (∀ j : Nat, (j < hd ∨ hd + m * u.n_seq_tokens ≤ j) →
      cellGet ((List.range m).foldl (fun cs s =>
        (List.range u.n_seq_tokens).foldl (fun cs i =>
          let k := s * u.n_seq_tokens + i
          modifyCell cs (hd + k) (fun c =>
            { c with
              pos := u.pos.getD k 0
              seq_id := (u.seq_id.getD s []).foldl (fun t q => insert q t) c.seq_id })) cs) cs) j
        = cellGet cs j) ∧
    (∀ s i : Nat, s < m → i < u.n_seq_tokens →
      cellGet ((List.range m).foldl (fun cs s =>
        (List.range u.n_seq_tokens).foldl (fun cs i =>
          let k := s * u.n_seq_tokens + i
          modifyCell cs (hd + k) (fun c =>
            { c with
              pos := u.pos.getD k 0
              seq_id := (u.seq_id.getD s []).foldl (fun t q => insert q t) c.seq_id })) cs) cs)
          (hd + (s * u.n_seq_tokens + i))
        = { cellGet cs (hd + (s * u.n_seq_tokens + i)) with
            pos := u.pos.getD (s * u.n_seq_tokens + i) 0
            seq_id := (u.seq_id.getD s []).foldl (fun t q => insert q t)
              (cellGet cs (hd + (s * u.n_seq_tokens + i))).seq_id }) ∧
    ((List.range m).foldl (fun cs s =>
        (List.range u.n_seq_tokens).foldl (fun cs i =>
          let k := s * u.n_seq_tokens + i
          modifyCell cs (hd + k) (fun c =>
            { c with
              pos := u.pos.getD k 0
              seq_id := (u.seq_id.getD s []).foldl (fun t q => insert q t) c.seq_id })) cs) cs).length
      = cs.length := by
  intro m
  induction m with
  | zero =>
    intro _
    exact ⟨fun j _ => rfl, fun s i hs _ => absurd hs (by omega), rfl⟩
  | succ m ih =>
    intro hm
    obtain ⟨ih1, ih2, ih3⟩ := ih (by omega)
    have hmul : (m + 1) * u.n_seq_tokens = m * u.n_seq_tokens + u.n_seq_tokens :=
      Nat.succ_mul m u.n_seq_tokens
    have hmul2 : (m + 1) * u.n_seq_tokens ≤ u.n_seqs * u.n_seq_tokens :=
      Nat.mul_le_mul_right _ hm
    rw [List.range_succ]
    simp only [List.foldl_append, List.foldl_cons, List.foldl_nil]
    try dsimp only
    set base := (List.range m).foldl (fun cs s =>
        (List.range u.n_seq_tokens).foldl (fun cs i =>
          let k := s * u.n_seq_tokens + i
          modifyCell cs (hd + k) (fun c =>
            { c with
              pos := u.pos.getD k 0
              seq_id := (u.seq_id.getD s []).foldl (fun t q => insert q t) c.seq_id })) cs) cs
      with hbase
    have hlen' : (hd + m * u.n_seq_tokens) + u.n_seq_tokens ≤ base.length := by
      rw [ih3]; omega
    obtain ⟨s1, s2, s3⟩ := stampInnerGet u hd m u.n_seq_tokens base le_rfl hlen'
    refine ⟨fun j hj => ?_, fun s i hs hi => ?_, ?_⟩
    · rw [s1 j (by omega)]
      exact ih1 j (by omega)
    · rcases Nat.lt_or_ge s m with hc | hc
      · have hblt : s * u.n_seq_tokens + i < m * u.n_seq_tokens := by
          have e1 : (s + 1) * u.n_seq_tokens = s * u.n_seq_tokens + u.n_seq_tokens :=
            Nat.succ_mul s u.n_seq_tokens
          have e2 : (s + 1) * u.n_seq_tokens ≤ m * u.n_seq_tokens :=
            Nat.mul_le_mul_right _ (by omega)
          omega
        rw [s1 _ (by omega)]
        exact ih2 s i hc hi
      · have hsm : s = m := by omega
        subst hsm
        rw [s2 i hi, ih1 _ (by omega)]
    · rw [s3, ih3]

/-- Per-cell specification of `stampCells`: the stamped block gets the
batch positions and seq ids (token `k` belongs to group `k / nst`),
everything else is untouched. -/
theorem stampCells_spec (u : Ubatch) (cs : List Cell) (hd : Nat)
    (hn : u.n_tokens = u.n_seqs * u.n_seq_tokens)
    (hlen : hd + u.n_tokens ≤ cs.length) :
    (stampCells cs hd u).length = cs.length ∧
    (∀ j : Nat, (j < hd ∨ hd + u.n_tokens ≤ j) →
      cellGet (stampCells cs hd u) j = cellGet cs j) ∧
    (∀ k : Nat, k < u.n_tokens →
      cellGet (stampCells cs hd u) (hd + k)
        = { cellGet cs (hd + k) with
            pos := u.pos.getD k 0
            seq_id := (u.seq_id.getD (k / u.n_seq_tokens) []).foldl (fun t q => insert q t)
              (cellGet cs (hd + k)).seq_id }) := by
  obtain ⟨g1, g2, g3⟩ := stampOuterGet u hd cs (by omega) u.n_seqs le_rfl
  refine ⟨g3, fun j hj => g1 j (by omega), fun k hk => ?_⟩
  have hnst : 0 < u.n_seq_tokens := by
    rcases Nat.eq_zero_or_pos u.n_seq_tokens with h0 | h0
    · rw [h0, Nat.mul_zero] at hn; omega
    · exact h0
  have hdm : u.n_seq_tokens * (k / u.n_seq_tokens) + k % u.n_seq_tokens = k :=
    Nat.div_add_mod k u.n_seq_tokens
  have hsd : k / u.n_seq_tokens < u.n_seqs := by
    rw [Nat.div_lt_iff_lt_mul hnst]
    calc k < u.n_tokens := hk
    _ = u.n_seqs * u.n_seq_tokens := hn
    _ = u.n_seqs * u.n_seq_tokens := rfl
  have hmd : k % u.n_seq_tokens < u.n_seq_tokens := Nat.mod_lt _ hnst
  have hkey := g2 (k / u.n_seq_tokens) (k % u.n_seq_tokens) hsd hmd
  have hke : k / u.n_seq_tokens * u.n_seq_tokens + k % u.n_seq_tokens = k := by
    rw [Nat.mul_comm] at hdm; exact hdm
  rw [hke] at hkey
  exact hkey

/-- C2: in transformer mode, with the cursor inside the pool and a
well-formed batch, `find_slot` fails exactly when the batch exceeds the
pool or no run of `n_tokens` consecutive empty cells exists; on success
it returns the first run in scan order from `head` (wrapping at most
once) as the span `(lo, lo + n_tokens)`, gives each span cell the batch
position and the seq ids of its group, adds `n_tokens` to `used`, leaves
`head` at the span start and touches no other cell. -/
theorem find_slot_trans_spec (st : State) (u : Ubatch)
    (hrec : st.recurrent = false) (hhd : st.head ≤ st.size)
    (hn : u.n_tokens = u.n_seqs * u.n_seq_tokens) :
    findSlotSpecProp st u := by
  unfold findSlotSpecProp State.find_slot
  rw [hrec]
  simp only [Bool.false_eq_true, if_false]
  unfold findSlotTrans
  by_cases hbig : st.size < u.n_tokens
  · rw [if_pos hbig]
    refine ⟨iff_of_true rfl (Or.inl hbig), fun hok => absurd hok (by simp [slotFailed])⟩
  · rw [if_neg hbig]
    rcases hres : findLoop st.cells st.size u.n_tokens (2 * st.size + 2) st.head 0 with ⟨o, hd'⟩
    cases o with
    | none =>
      try dsimp only
      have hnorun : ∀ p, ¬ isRun st.cells st.size u.n_tokens p := by
        intro p hrun
        obtain ⟨hb, hall⟩ := hrun
        by_cases h0 : u.n_tokens = 0
        · have hone : ∀ (fuel hd nt : Nat), 1 ≤ fuel → hd ≤ st.size →
              findLoop st.cells st.size 0 fuel hd nt = (some hd, hd) := by
            intro fuel hd nt hf hle
            cases fuel with
            | zero => exact absurd hf (by omega)
            | succ f =>
              unfold findLoop
              rw [if_neg (by omega)]
              rfl
          rw [h0] at hres
          rw [hone (2 * st.size + 2) st.head 0 (by omega) hhd] at hres
          simp at hres
        · rcases Nat.lt_or_ge p st.head with hc | hc
          · obtain ⟨a, b, hsome⟩ := findLoop_complete_wrap st.cells st.size u.n_tokens p
              st.head hb hall hc hhd (2 * st.size + 2) st.head le_rfl hhd (by omega)
            rw [Nat.sub_self] at hsome
            rw [hres] at hsome
            simp at hsome
          · obtain ⟨a, b, hsome⟩ := findLoop_complete_ge st.cells st.size u.n_tokens p
              hb hall (2 * st.size + 2) st.head 0 hc (by omega) (by omega)
            rw [hres] at hsome
            simp at hsome
      exact ⟨iff_of_true rfl (Or.inr hnorun), fun hok => absurd hok (by simp [slotFailed])⟩
    | some hd =>
      obtain ⟨hq, hle, hrun⟩ :=
        findLoop_some_run st.cells st.size u.n_tokens (2 * st.size + 2) st.head 0 hd hd' hres
      try dsimp only
      obtain ⟨g1, g2, g3⟩ := stampCells_spec u st.cells hd hn
        (by have hsz : st.size = st.cells.length := rfl; omega)
      refine ⟨iff_of_false (by simp) ?_, fun _ => ?_⟩
      · intro hor
        rcases hor with hbig2 | hno
        · exact hbig hbig2
        · exact hno hd ⟨hle, hrun⟩
      · refine ⟨⟨hle, hrun⟩, rfl, ?_, rfl, rfl, g1,
          fun k hk => ?_, fun k hk x => ?_, fun j hj => g2 j hj⟩
        · exact findLoop_min1 st.cells st.size u.n_tokens st.head (2 * st.size + 2)
            st.head 0 hd hd' le_rfl (fun r h1 h2 => absurd h1 (by omega)) hres
        · rw [g3 k hk]
        · rw [g3 k hk]
          exact mem_foldl_insert _ _ _

/-- Witness for C2 at concrete inputs: scenario S1, a fresh
non-recurrent size-8 cache and a three-token batch for sequence 0. -/
theorem find_slot_trans_spec_witness :
    (initState false 8).recurrent = false ∧
    (initState false 8).head ≤ (initState false 8).size ∧
    uS1.n_tokens = uS1.n_seqs * uS1.n_seq_tokens ∧
    findSlotSpecProp (initState false 8) uS1 :=
  ⟨rfl, by decide, by decide,
   find_slot_trans_spec (initState false 8) uS1 rfl (by decide) (by decide)⟩

end KV
